import Mathlib

/-!
Formal verification of the Kunlun cryptographic core (ALSZ OT extension,
cwPRF-based PSI, NIZK dlog equality, Bloom filter, 128-bit block primitives
and SIMD bit-matrix transposes) against its specification.

Modelling conventions, used throughout:
* a byte is a `Nat` (< 256 where it matters, stated as hypotheses);
* a 128-bit block is a `Nat` (little-endian byte order: byte `k` of a block
  holds bits `8k .. 8k+7` of the `Nat`);
* byte buffers are functions `Nat → Nat` (byte index to byte value) or
  `List Nat`;
* SSE intrinsics (`_mm_slli_epi64`, `_mm_srli_si128`, `_mm_movemask_epi8`,
  ...) are modelled arithmetically on such `Nat`s;
* code of the repository that the claims depend on but that is not part of
  the eight source files (PRG, hashes, the Naor-Pinkas base OT, elliptic
  curve operations, `Block::FromSparseBytes`) is modelled from the
  specification; each such definition carries a doc comment starting with
  `Modelled from the spec:`.
-/

/-! ### Generic byte and bit helpers -/

/-- Byte `k` (little-endian) of a natural number. -/
def byteOf (v k : Nat) : Nat := v / 2 ^ (8 * k) % 256

/-- Pack a list of bytes, little-endian, into a natural number (byte values
are truncated to 8 bits, as a store through a `uint8_t *` would). -/
def packBytes (L : List Nat) : Nat := L.foldr (fun b acc => b % 256 + 256 * acc) 0

/-- Assemble a byte from 8 bit values. -/
def mkByte (g : Nat → Bool) : Nat :=
  Nat.bit (g 0) (Nat.bit (g 1) (Nat.bit (g 2) (Nat.bit (g 3)
    (Nat.bit (g 4) (Nat.bit (g 5) (Nat.bit (g 6) (Nat.bit (g 7) 0)))))))

theorem packBytes_nil : packBytes [] = 0 := rfl

theorem packBytes_cons (b : Nat) (L : List Nat) :
    packBytes (b :: L) = b % 256 + 256 * packBytes L := rfl

theorem packBytes_lt (L : List Nat) : packBytes L < 2 ^ (8 * L.length) := by
  induction L with
  | nil => simp [packBytes]
  | cons b L ih =>
    rw [packBytes_cons]
    have hb : b % 256 < 256 := Nat.mod_lt _ (by norm_num)
    have : 8 * (b :: L).length = 8 * L.length + 8 := by simp [List.length_cons]; ring
    rw [this, pow_add]
    have : 256 * packBytes L + 256 ≤ 256 * 2 ^ (8 * L.length) := by
      have := Nat.succ_le_of_lt ih
      calc 256 * packBytes L + 256 = 256 * (packBytes L + 1) := by ring
        _ ≤ 256 * 2 ^ (8 * L.length) := Nat.mul_le_mul_left _ this
    omega

theorem byteOf_packBytes (L : List Nat) (k : Nat) (hk : k < L.length) :
    byteOf (packBytes L) k = L.getD k 0 % 256 := by
  induction L generalizing k with
  | nil => simp at hk
  | cons b L ih =>
    cases k with
    | zero =>
      simp only [byteOf, packBytes_cons, Nat.mul_zero, Nat.pow_zero, Nat.div_one,
        List.getD_cons_zero]
      omega
    | succ k =>
      have hk' : k < L.length := by simpa using hk
      have hdiv : (b % 256 + 256 * packBytes L) / 2 ^ (8 * (k + 1)) =
          packBytes L / 2 ^ (8 * k) := by
        have h8 : (8 : Nat) * (k + 1) = 8 + 8 * k := by ring
        rw [h8, pow_add, ← Nat.div_div_eq_div_mul]
        have : (b % 256 + 256 * packBytes L) / 2 ^ 8 = packBytes L := by
          have hb : b % 256 < 256 := Nat.mod_lt _ (by norm_num)
          omega
        rw [this]
      rw [packBytes_cons]
      simp only [byteOf, hdiv, List.getD_cons_succ]
      exact ih k hk'

theorem testBit_byteOf (v k j : Nat) (hj : j < 8) :
    (byteOf v k).testBit j = v.testBit (8 * k + j) := by
  unfold byteOf
  have h256 : (256 : Nat) = 2 ^ 8 := by norm_num
  rw [h256, Nat.testBit_mod_two_pow, ← Nat.shiftRight_eq_div_pow, Nat.testBit_shiftRight]
  simp [hj]

theorem testBit_packBytes (L : List Nat) (k j : Nat) (hk : k < L.length) (hj : j < 8) :
    (packBytes L).testBit (8 * k + j) = (L.getD k 0).testBit j := by
  rw [← testBit_byteOf _ _ _ hj, byteOf_packBytes L k hk]
  have h256 : (256 : Nat) = 2 ^ 8 := by norm_num
  rw [h256, Nat.testBit_mod_two_pow]
  simp [hj]

theorem mkByte_lt (g : Nat → Bool) : mkByte g < 256 := by
  have h : ∀ (b : Bool) (n : Nat), Nat.bit b n ≤ 2 * n + 1 := by
    intro b n; cases b <;> simp [Nat.bit]
  unfold mkByte
  have h7 := h (g 7) 0
  have h6 := h (g 6) (Nat.bit (g 7) 0)
  have h5 := h (g 5) (Nat.bit (g 6) (Nat.bit (g 7) 0))
  have h4 := h (g 4) (Nat.bit (g 5) (Nat.bit (g 6) (Nat.bit (g 7) 0)))
  have h3 := h (g 3) (Nat.bit (g 4) (Nat.bit (g 5) (Nat.bit (g 6) (Nat.bit (g 7) 0))))
  have h2 := h (g 2) (Nat.bit (g 3) (Nat.bit (g 4) (Nat.bit (g 5) (Nat.bit (g 6)
    (Nat.bit (g 7) 0)))))
  have h1 := h (g 1) (Nat.bit (g 2) (Nat.bit (g 3) (Nat.bit (g 4) (Nat.bit (g 5)
    (Nat.bit (g 6) (Nat.bit (g 7) 0))))))
  have h0 := h (g 0) (Nat.bit (g 1) (Nat.bit (g 2) (Nat.bit (g 3) (Nat.bit (g 4)
    (Nat.bit (g 5) (Nat.bit (g 6) (Nat.bit (g 7) 0)))))))
  omega

theorem testBit_mkByte (g : Nat → Bool) (j : Nat) (hj : j < 8) :
    (mkByte g).testBit j = g j := by
  unfold mkByte
  interval_cases j <;>
    simp [Nat.testBit_bit_zero, Nat.testBit_bit_succ]

/-! ### 128-bit block primitives (src/crypto/block.hpp)

A `block` (`__m128i`) is modelled as a `Nat` below `2 ^ 128`, little-endian:
byte `k` of the register is bits `8k .. 8k+7` of the `Nat`. -/

namespace Block

/-- A block with all 128 bits set (`all_one_block` in the source). -/
def all_one_block : Nat := 2 ^ 128 - 1

/-- Model of `_mm_slli_epi64 v n`: shift each 64-bit lane left by `n`. -/
def mmSlliEpi64 (v n : Nat) : Nat :=
  v % 2 ^ 64 * 2 ^ n % 2 ^ 64 + v / 2 ^ 64 * 2 ^ n % 2 ^ 64 * 2 ^ 64

/-- Model of `_mm_srli_si128 v bytes`: shift the whole register right by
`bytes` bytes, filling with zeros. -/
def mmSrliSi128 (v bytes : Nat) : Nat := v / 2 ^ (8 * bytes)

/-- Model of `_mm_slli_si128 v bytes`: shift the whole register left by
`bytes` bytes, truncating to 128 bits. -/
def mmSlliSi128 (v bytes : Nat) : Nat := v * 2 ^ (8 * bytes) % 2 ^ 128

/-- `Calc2ToTheN` from the source (`N & 63` is `N % 64`). -/
def Calc2ToTheN (N : Nat) : Nat :=
  let onesLowHigh := mmSlliEpi64 all_one_block 63
  let single_one_block :=
    if N < 64 then mmSrliSi128 onesLowHigh (64 / 8) else mmSlliSi128 onesLowHigh (64 / 8)
  mmSlliEpi64 single_one_block (N % 64)

/-- `SetBitN` from the source: `_mm_or_si128 value (Calc2ToTheN N)`. -/
def SetBitN (value N : Nat) : Nat := value ||| Calc2ToTheN N

/-- `Block::FromSparseBits` from the source: `block_data[i]` is initialised
to `zero_block`, and in the loop the source calls `SetBitN(block_data[i], j)`
as a statement, discarding its return value, so the accumulator is left
unchanged. `bool_data` is the sparse input (one byte per bit); the result
maps each block index `i` to the produced block. -/
def FromSparseBits (bool_data : Nat → Nat) (i : Nat) : Nat :=
  (List.range 128).foldl
    (fun b j => if bool_data (128 * i + j) = 1 then (fun _r => b) (SetBitN b j) else b) 0

/-- `Block::FromDenseBits` from the source: a `memcpy` of `BIT_LEN / 8`
bytes into the block array; block `i` is bytes `16 i .. 16 i + 15` of the
input, little-endian. -/
def FromDenseBits (bool_data : List Nat) (BLOCK_LEN : Nat) : List Nat :=
  (List.range BLOCK_LEN).map (fun i =>
    packBytes ((List.range 16).map (fun k => bool_data.getD (16 * i + k) 0)))

/-- `Block::ToDenseBits` from the source: a `memcpy` of `BIT_LEN / 8` bytes
out of the block array; output byte `p` is byte `p % 16` of block `p / 16`. -/
def ToDenseBits (block_data : List Nat) (BIT_LEN : Nat) : List Nat :=
  (List.range (BIT_LEN / 8)).map (fun p => byteOf (block_data.getD (p / 16) 0) (p % 16))

end Block

theorem getD_map_range (n i : Nat) (f : Nat → Nat) (h : i < n) :
    ((List.range n).map f).getD i 0 = f i := by
  have hlen : i < ((List.range n).map f).length := by simpa using h
  rw [List.getD_eq_getElem _ _ hlen]
  simp

/-- The dense conversions of src/crypto/block.hpp are mutually inverse:
`ToDenseBits` after `FromDenseBits` returns the input byte string. -/
theorem Block.dense_roundtrip (L : List Nat) (n : Nat)
    (hlen : L.length = 16 * n) (hbyte : ∀ b ∈ L, b < 256) :
    Block.ToDenseBits (Block.FromDenseBits L n) (128 * n) = L := by
  have hdiv : 128 * n / 8 = 16 * n := by omega
  apply List.ext_getElem
  · simp [Block.ToDenseBits, hdiv, hlen]
  · intro p hp hp'
    have hpn : p < 16 * n := by simpa [Block.ToDenseBits, hdiv] using hp
    have hp16 : p / 16 < n := by omega
    simp only [Block.ToDenseBits, hdiv, List.getElem_map, List.getElem_range]
    rw [Block.FromDenseBits, getD_map_range _ _ _ hp16]
    have hmod : p % 16 < 16 := Nat.mod_lt _ (by norm_num)
    rw [byteOf_packBytes _ _ (by simpa using hmod),
      getD_map_range _ _ _ hmod]
    have hidx : 16 * (p / 16) + p % 16 = p := by omega
    rw [hidx, List.getD_eq_getElem L 0 hp']
    exact Nat.mod_eq_of_lt (hbyte _ (List.getElem_mem hp'))

/-- C4: `Block::FromSparseBits` discards the value returned by `SetBitN`
(the call is an expression statement), so every produced block is the
`zero_block` it was initialised to, whatever the sparse input is. -/
theorem C4_FromSparseBits_always_zero :
    ∀ (bool_data : Nat → Nat) (i : Nat), Block.FromSparseBits bool_data i = 0 := by
  intro f i
  have h : ∀ (L : List Nat) (b : Nat),
      L.foldl (fun b j => if f (128 * i + j) = 1 then (fun _r => b) (Block.SetBitN b j) else b) b
        = b := by
    intro L
    induction L with
    | nil => intro b; rfl
    | cons x L ih =>
      intro b
      have hstep :
          (if f (128 * i + x) = 1 then (fun _r => b) (Block.SetBitN b x) else b) = b := by
        split <;> rfl
      rw [List.foldl_cons, hstep]
      exact ih b
  exact h (List.range 128) 0

/-! ### Bit-matrix transposes (src/crypto/block.hpp)

Byte buffers are functions from byte index to byte value.  Each C loop nest
is modelled as the list of `(address, value)` byte stores it performs, in
execution order, applied to the output buffer in sequence.  For
`BitMatrixTranspose` the dimensions are `int`, so the loop bounds
`nrows - 16` / `ncols - 16` never wrap on the claimed inputs.  For
`empBitMatrixTranspose` the dimensions are `uint64_t`: when a dimension is
below 16 the bound wraps to near `2^64`, the loop condition holds for every
multiple of 16 the counter reaches, and the body reads far outside the
matrix; such a run never completes a transpose and is modelled as `none`,
while `empBitMatrixTransposeRun` collects the stores of a run whose bounds
do not wrap. -/

/-- Point update of a byte buffer (a single byte store). -/
def bufWrite (f : Nat → Nat) (p v : Nat) : Nat → Nat := fun q => if q = p then v else f q

/-- Apply a list of byte stores, in order, to a buffer. -/
def applyW (out : Nat → Nat) (ws : List (Nat × Nat)) : Nat → Nat :=
  ws.foldl (fun o w => bufWrite o w.1 w.2) out

/-- One step of `_mm_slli_epi64 v 1`. -/
def mmSlli1 (v : Nat) : Nat := Block.mmSlliEpi64 v 1

/-- Model of `_mm_movemask_epi8 v`: bit `k` of the result is the top bit of
byte `k` of `v`, for `k < 16`. -/
def mmMovemaskEpi8 (v : Nat) : Nat :=
  mkByte (fun k => v.testBit (8 * k + 7)) + 256 * mkByte (fun k => v.testBit (8 * (8 + k) + 7))

/-- Byte of the input matrix holding bit `(x, y)`: the `INP`/`INPUT` macro
`inp[x * ncols/8 + y/8]`, with `ncb = ncols / 8`. -/
def inpByte (inp : Nat → Nat) (ncb x y : Nat) : Nat := inp (x * ncb + y / 8)

/-- Bit `(x, y)` of a row-major bit matrix with `cb` bytes per row
(least-significant-bit-first inside each byte). -/
def matBit (f : Nat → Nat) (cb x y : Nat) : Bool := (f (x * cb + y / 8)).testBit (y % 8)

/-- Load of a 16x8 tile in `BitMatrixTranspose`: `tmp.b[i] = INP(rr + II, cc)`
with `II = i ^ 7`. -/
def loadTile16 (inp : Nat → Nat) (ncb rr cc : Nat) : Nat :=
  packBytes ((List.range 16).map (fun i => inpByte inp ncb (rr + (i ^^^ 7)) cc))

/-- Emit loop of a 16x8 tile in `BitMatrixTranspose`: 8 iterations, each
storing a 16-bit little-endian movemask at `OUT(rr, cc + II)` and shifting
the lanes left by one; the loop visits `i = 7, 6, ..., 0`. -/
def emitTile16 : Nat → Nat → Nat → Nat → Nat → List (Nat × Nat)
  | 0, _, _, _, _ => []
  | i + 1, tmp, nrb, rr, cc =>
    ((cc + (i ^^^ 7)) * nrb + rr / 8, mmMovemaskEpi8 tmp % 256) ::
    ((cc + (i ^^^ 7)) * nrb + rr / 8 + 1, mmMovemaskEpi8 tmp / 256) ::
    emitTile16 i (mmSlli1 tmp) nrb rr cc

/-- Load of a trailing 8x16 tile in `BitMatrixTranspose`: each 16-bit read
`*(uint16_t const*)&INP(rr + II, cc)` fills `tmp.b[i]` and `tmp.b[i + 8]`. -/
def loadTile8x16 (inp : Nat → Nat) (ncb rr cc : Nat) : Nat :=
  packBytes ((List.range 8).map (fun i => inp ((rr + (i ^^^ 7)) * ncb + cc / 8)) ++
             (List.range 8).map (fun i => inp ((rr + (i ^^^ 7)) * ncb + cc / 8 + 1)))

/-- Emit loop of a trailing 8x16 tile in `BitMatrixTranspose`: two single
byte stores per iteration, at `OUT(rr, cc + II)` and `OUT(rr, cc + II + 8)`. -/
def emitTile8x16 : Nat → Nat → Nat → Nat → Nat → List (Nat × Nat)
  | 0, _, _, _, _ => []
  | i + 1, tmp, nrb, rr, cc =>
    ((cc + (i ^^^ 7)) * nrb + rr / 8, mmMovemaskEpi8 tmp % 256) ::
    ((cc + (i ^^^ 7) + 8) * nrb + rr / 8, mmMovemaskEpi8 tmp / 256) ::
    emitTile8x16 i (mmSlli1 tmp) nrb rr cc

/-- Load of the final 8x8 tile in `BitMatrixTranspose` (the upper 8 bytes of
the union are residue of earlier iterations; they only reach bits 8..15 of
the movemask, which the single-byte store truncates away, so they are
modelled as zero). -/
def loadTile8 (inp : Nat → Nat) (ncb rr cc : Nat) : Nat :=
  packBytes ((List.range 8).map (fun i => inpByte inp ncb (rr + (i ^^^ 7)) cc))

/-- Emit loop of the final 8x8 tile in `BitMatrixTranspose`: one single-byte
store per iteration at `OUT(rr, cc + II)`. -/
def emitTile8 : Nat → Nat → Nat → Nat → Nat → List (Nat × Nat)
  | 0, _, _, _, _ => []
  | i + 1, tmp, nrb, rr, cc =>
    ((cc + (i ^^^ 7)) * nrb + rr / 8, mmMovemaskEpi8 tmp % 256) ::
    emitTile8 i (mmSlli1 tmp) nrb rr cc

/-- `BitMatrixTranspose` from the source, acting on an `nrows x ncols` bit
matrix `inp` and an output buffer `out` (bytes are functions of the byte
index).  `II` is `i ^ 7` throughout. -/
def BitMatrixTranspose (inp : Nat → Nat) (nrows ncols : Nat) (out : Nat → Nat) : Nat → Nat :=
  let ncb := ncols / 8
  let nrb := nrows / 8
  let out1 := applyW out ((List.range (nrows / 16)).flatMap (fun a =>
    (List.range (ncols / 8)).flatMap (fun c =>
      emitTile16 8 (loadTile16 inp ncb (16 * a) (8 * c)) nrb (16 * a) (8 * c))))
  let rr := 16 * (nrows / 16)
  if rr = nrows then out1
  else
    let out2 := applyW out1 ((List.range (ncols / 16)).flatMap (fun c =>
      emitTile8x16 8 (loadTile8x16 inp ncb rr (16 * c)) nrb rr (16 * c)))
    let cc := 16 * (ncols / 16)
    if cc = ncols then out2
    else applyW out2 (emitTile8 8 (loadTile8 inp ncb rr cc) nrb rr cc)

/-- Load of a 16x8 tile in `empBitMatrixTranspose` (`_mm_set_epi8` of
`INPUT(rr + 0, cc) .. INPUT(rr + 15, cc)`). -/
def empLoadTile16 (inp : Nat → Nat) (ncb rr cc : Nat) : Nat :=
  packBytes ((List.range 16).map (fun i => inpByte inp ncb (rr + i) cc))

/-- Emit loop of a 16x8 tile in `empBitMatrixTranspose`: stores the 16-bit
movemask at `OUTPUT(rr, cc + i)` for `i = 7, 6, ..., 0`. -/
def empEmitTile16 : Nat → Nat → Nat → Nat → Nat → List (Nat × Nat)
  | 0, _, _, _, _ => []
  | i + 1, tmp, nrb, rr, cc =>
    ((cc + i) * nrb + rr / 8, mmMovemaskEpi8 tmp % 256) ::
    ((cc + i) * nrb + rr / 8 + 1, mmMovemaskEpi8 tmp / 256) ::
    empEmitTile16 i (mmSlli1 tmp) nrb rr cc

/-- Load of a trailing 8x16 tile in the simple (non-SIMD) branch of
`empBitMatrixTranspose`: each 16-bit read fills `tmp.b[i]`, `tmp.b[i+8]`. -/
def empLoadTile8x16 (inp : Nat → Nat) (ncb rr cc : Nat) : Nat :=
  packBytes ((List.range 8).map (fun i => inp ((rr + i) * ncb + cc / 8)) ++
             (List.range 8).map (fun i => inp ((rr + i) * ncb + cc / 8 + 1)))

/-- Load of a trailing 8x16 tile in the `_mm_set_epi16` branch of
`empBitMatrixTranspose`: lane `j` is the 16-bit read at `INPUT(rr + j, cc)`. -/
def empLoadFancy8x16 (inp : Nat → Nat) (ncb rr cc : Nat) : Nat :=
  packBytes ((List.range 8).flatMap
    (fun j => [inp ((rr + j) * ncb + cc / 8), inp ((rr + j) * ncb + cc / 8 + 1)]))

/-- Emit loop of a trailing 8x16 tile in `empBitMatrixTranspose`: single
byte stores at `OUTPUT(rr, cc + i)` and `OUTPUT(rr, cc + i + 8)`. -/
def empEmitTile8x16 : Nat → Nat → Nat → Nat → Nat → List (Nat × Nat)
  | 0, _, _, _, _ => []
  | i + 1, tmp, nrb, rr, cc =>
    ((cc + i) * nrb + rr / 8, mmMovemaskEpi8 tmp % 256) ::
    ((cc + i + 8) * nrb + rr / 8, mmMovemaskEpi8 tmp / 256) ::
    empEmitTile8x16 i (mmSlli1 tmp) nrb rr cc

/-- Load of the final 8x8 tile of `empBitMatrixTranspose` (as in
`loadTile8`, the residual upper union bytes only reach the truncated
movemask bits and are modelled as zero). -/
def empLoadTile8 (inp : Nat → Nat) (ncb rr cc : Nat) : Nat :=
  packBytes ((List.range 8).map (fun i => inpByte inp ncb (rr + i) cc))

/-- Emit loop of the final 8x8 tile of `empBitMatrixTranspose`. -/
def empEmitTile8 : Nat → Nat → Nat → Nat → Nat → List (Nat × Nat)
  | 0, _, _, _, _ => []
  | i + 1, tmp, nrb, rr, cc =>
    ((cc + i) * nrb + rr / 8, mmMovemaskEpi8 tmp % 256) ::
    empEmitTile8 i (mmSlli1 tmp) nrb rr cc

/-- The stores of `empBitMatrixTranspose` on a run whose `uint64_t` loop
bounds do not wrap (for `ROW_NUM ≥ 16`, a loop `rr <= ROW_NUM - 16` step 16
does exactly `ROW_NUM / 16` iterations, and likewise for the remainder's
column loop).  The remainder row of 8x16 blocks uses the simple
byte-by-byte load whenever
`(COLUMN_NUM % 8 = 0 ∧ COLUMN_NUM % 16 ≠ 0) ∨ (ROW_NUM % 8 = 0 ∧ ROW_NUM % 16 ≠ 0)`
and the `_mm_set_epi16` load otherwise, exactly as the source's
if/else does. -/
def empBitMatrixTransposeRun (inp : Nat → Nat) (ROW_NUM COLUMN_NUM : Nat)
    (out : Nat → Nat) : Nat → Nat :=
  let ncb := COLUMN_NUM / 8
  let nrb := ROW_NUM / 8
  let out1 := applyW out ((List.range (ROW_NUM / 16)).flatMap (fun a =>
    (List.range (COLUMN_NUM / 8)).flatMap (fun c =>
      empEmitTile16 8 (empLoadTile16 inp ncb (16 * a) (8 * c)) nrb (16 * a) (8 * c))))
  let rr := 16 * (ROW_NUM / 16)
  if rr = ROW_NUM then out1
  else
    let out2 :=
      if (COLUMN_NUM % 8 = 0 ∧ COLUMN_NUM % 16 ≠ 0) ∨ (ROW_NUM % 8 = 0 ∧ ROW_NUM % 16 ≠ 0) then
        applyW out1 ((List.range (COLUMN_NUM / 16)).flatMap (fun c =>
          empEmitTile8x16 8 (empLoadTile8x16 inp ncb rr (16 * c)) nrb rr (16 * c)))
      else
        applyW out1 ((List.range (COLUMN_NUM / 16)).flatMap (fun c =>
          empEmitTile8x16 8 (empLoadFancy8x16 inp ncb rr (16 * c)) nrb rr (16 * c)))
    let cc := 16 * (COLUMN_NUM / 16)
    if cc = COLUMN_NUM then out2
    else applyW out2 (empEmitTile8 8 (empLoadTile8 inp ncb rr cc) nrb rr cc)

/-- `empBitMatrixTranspose` from the source, with the `uint64_t` loop
bounds taken literally.  When `ROW_NUM < 16` the main loop's bound
`ROW_NUM - 16` wraps: every multiple of 16 satisfies `rr <= ROW_NUM - 16`,
so the loop never exits normally and reads out of bounds from the first
tile on — the run produces no transpose and is `none`.  The same happens
to the remainder's `cc <= COLUMN_NUM - 16` loop when it is entered
(`16 * (ROW_NUM / 16) ≠ ROW_NUM`) with `COLUMN_NUM < 16`.  Otherwise the
run performs exactly the stores of `empBitMatrixTransposeRun`. -/
def empBitMatrixTranspose (inp : Nat → Nat) (ROW_NUM COLUMN_NUM : Nat)
    (out : Nat → Nat) : Option (Nat → Nat) :=
  if ROW_NUM < 16 then none
  else if 16 * (ROW_NUM / 16) ≠ ROW_NUM ∧ COLUMN_NUM < 16 then none
  else some (empBitMatrixTransposeRun inp ROW_NUM COLUMN_NUM out)

/-! ### Machinery for reasoning about the write lists -/

theorem bufWrite_same (f : Nat → Nat) (p v : Nat) : bufWrite f p v p = v := by
  simp [bufWrite]

theorem bufWrite_other (f : Nat → Nat) (p v q : Nat) (h : q ≠ p) : bufWrite f p v q = f q := by
  simp [bufWrite, h]

theorem applyW_nil (out : Nat → Nat) : applyW out [] = out := rfl

theorem applyW_cons (out : Nat → Nat) (w : Nat × Nat) (ws : List (Nat × Nat)) :
    applyW out (w :: ws) = applyW (bufWrite out w.1 w.2) ws := rfl

theorem applyW_append (out : Nat → Nat) (ws1 ws2 : List (Nat × Nat)) :
    applyW out (ws1 ++ ws2) = applyW (applyW out ws1) ws2 := by
  simp [applyW, List.foldl_append]

theorem applyW_notin (out : Nat → Nat) (ws : List (Nat × Nat)) (q : Nat)
    (h : ∀ w ∈ ws, w.1 ≠ q) : applyW out ws q = out q := by
  induction ws generalizing out with
  | nil => rfl
  | cons w ws ih =>
    rw [applyW_cons, ih _ (fun w' hw' => h w' (List.mem_cons_of_mem _ hw'))]
    exact bufWrite_other _ _ _ _ (fun hq => h w (List.mem_cons_self _ _) hq.symm)

/-- Two byte addresses of the form `column * nrb + row` differ when the
column indices differ or the (in-range) row indices differ. -/
theorem addr_ne2 (D0 D1 r0 r1 nrb : Nat) (h : D0 ≠ D1 ∨ r0 ≠ r1)
    (hr0 : r0 < nrb) (hr1 : r1 < nrb) : D0 * nrb + r0 ≠ D1 * nrb + r1 := by
  rcases Nat.lt_trichotomy D0 D1 with hD | hD | hD
  · have h1 : (D0 + 1) * nrb ≤ D1 * nrb := Nat.mul_le_mul_right _ (by omega)
    have h2 : (D0 + 1) * nrb = D0 * nrb + nrb := by ring
    omega
  · subst hD
    have : r0 ≠ r1 := by tauto
    omega
  · have h1 : (D1 + 1) * nrb ≤ D0 * nrb := Nat.mul_le_mul_right _ (by omega)
    have h2 : (D1 + 1) * nrb = D1 * nrb + nrb := by ring
    omega

/-- Lookup through a `flatMap` over `List.range`: if iteration `t0` writes
value `v` at `q` whatever buffer it starts from, and no other iteration
touches `q`, the final buffer holds `v` at `q`. -/
theorem applyW_range_flatMap (T t0 : Nat) (F : Nat → List (Nat × Nat)) (q v : Nat)
    (out : Nat → Nat) (ht0 : t0 < T)
    (hself : ∀ o : Nat → Nat, applyW o (F t0) q = v)
    (hother : ∀ t, t < T → t ≠ t0 → ∀ w ∈ F t, w.1 ≠ q) :
    applyW out ((List.range T).flatMap F) q = v := by
  induction T generalizing out with
  | zero => omega
  | succ T ih =>
    rw [List.range_succ, List.flatMap_append, applyW_append]
    rcases Nat.lt_or_ge t0 T with hlt | hge
    · have hT : ∀ w ∈ ([T] : List Nat).flatMap F, w.1 ≠ q := by
        intro w hw
        simp only [List.flatMap_cons, List.flatMap_nil, List.append_nil] at hw
        exact hother T (by omega) (by omega) w hw
      rw [applyW_notin _ _ _ hT]
      exact ih out hlt (fun t ht hne => hother t (by omega) hne)
    · have ht0T : t0 = T := by omega
      subst ht0T
      simp only [List.flatMap_cons, List.flatMap_nil, List.append_nil]
      exact hself _

/-- Frame over a `flatMap` of `List.range`: if no iteration writes `q`,
the buffer is unchanged at `q`. -/
theorem applyW_range_flatMap_frame (T : Nat) (F : Nat → List (Nat × Nat)) (q : Nat)
    (out : Nat → Nat) (h : ∀ t, t < T → ∀ w ∈ F t, w.1 ≠ q) :
    applyW out ((List.range T).flatMap F) q = out q := by
  apply applyW_notin
  intro w hw
  rw [List.mem_flatMap] at hw
  obtain ⟨t, ht, hwt⟩ := hw
  exact h t (List.mem_range.mp ht) w hwt

/-! ### Bit-level facts about the movemask/shift emit loops -/

theorem mmMovemaskEpi8_mod (v : Nat) :
    mmMovemaskEpi8 v % 256 = mkByte (fun k => v.testBit (8 * k + 7)) := by
  have h1 := mkByte_lt (fun k => v.testBit (8 * k + 7))
  unfold mmMovemaskEpi8
  omega

theorem mmMovemaskEpi8_div (v : Nat) :
    mmMovemaskEpi8 v / 256 = mkByte (fun k => v.testBit (8 * (8 + k) + 7)) := by
  have h1 := mkByte_lt (fun k => v.testBit (8 * k + 7))
  unfold mmMovemaskEpi8
  omega

theorem testBit_mmSlli1 (v m : Nat) (hm : m % 64 ≠ 0) (hm128 : m < 128) :
    (mmSlli1 v).testBit m = v.testBit (m - 1) := by
  unfold mmSlli1 Block.mmSlliEpi64
  rcases Nat.lt_or_ge m 64 with h64 | h64
  · have hm1 : 1 ≤ m := by omega
    set A := v % 2 ^ 64 * 2 ^ 1 % 2 ^ 64 with hA
    set B := v / 2 ^ 64 * 2 ^ 1 % 2 ^ 64 with hB
    have hAlt : A < 2 ^ 64 := Nat.mod_lt _ (by norm_num)
    have hmod : (A + B * 2 ^ 64) % 2 ^ 64 = A := by
      rw [Nat.add_mul_mod_self_right, Nat.mod_eq_of_lt hAlt]
    have h1 : (A + B * 2 ^ 64).testBit m = A.testBit m := by
      have h := Nat.testBit_mod_two_pow (A + B * 2 ^ 64) 64 m
      rw [hmod, decide_eq_true h64, Bool.true_and] at h
      exact h.symm
    rw [h1, hA]
    rw [Nat.testBit_mod_two_pow, decide_eq_true h64, Bool.true_and]
    have h3 : v % 2 ^ 64 * 2 ^ 1 = (v % 2 ^ 64) <<< 1 := by
      rw [Nat.shiftLeft_eq]
    rw [h3, Nat.testBit_shiftLeft]
    have h4 : (v % 2 ^ 64).testBit (m - 1) = v.testBit (m - 1) := by
      rw [Nat.testBit_mod_two_pow, decide_eq_true (show m - 1 < 64 by omega), Bool.true_and]
    rw [decide_eq_true (show m ≥ 1 from hm1), Bool.true_and, h4]
  · set A := v % 2 ^ 64 * 2 ^ 1 % 2 ^ 64 with hA
    set B := v / 2 ^ 64 * 2 ^ 1 % 2 ^ 64 with hB
    have hAlt : A < 2 ^ 64 := Nat.mod_lt _ (by norm_num)
    have hdiv : (A + B * 2 ^ 64) / 2 ^ 64 = B := by
      rw [Nat.add_mul_div_right _ _ (by norm_num : (0:Nat) < 2 ^ 64),
        Nat.div_eq_of_lt hAlt, Nat.zero_add]
    have hsplit : m = 64 + (m - 64) := by omega
    rw [hsplit]
    have h1 : (A + B * 2 ^ 64).testBit (64 + (m - 64)) = B.testBit (m - 64) := by
      rw [← Nat.testBit_shiftRight, Nat.shiftRight_eq_div_pow, hdiv]
    rw [h1, hB]
    rw [Nat.testBit_mod_two_pow, decide_eq_true (show m - 64 < 64 by omega), Bool.true_and]
    have h3 : v / 2 ^ 64 * 2 ^ 1 = (v / 2 ^ 64) <<< 1 := by
      rw [Nat.shiftLeft_eq]
    rw [h3, Nat.testBit_shiftLeft]
    have hm64 : 1 ≤ m - 64 := by omega
    have h4 : (v / 2 ^ 64).testBit (m - 64 - 1) = v.testBit (64 + (m - 64 - 1)) := by
      rw [← Nat.testBit_shiftRight, Nat.shiftRight_eq_div_pow]
    rw [decide_eq_true (show m - 64 ≥ 1 from hm64), Bool.true_and, h4]
    congr 1
    omega

theorem testBit_mmSlli1_iter (v s k : Nat) (hs : s ≤ 7) (hk : k < 16) :
    (mmSlli1^[s] v).testBit (8 * k + 7) = v.testBit (8 * k + 7 - s) := by
  induction s generalizing v with
  | zero => simp
  | succ s ih =>
    rw [Function.iterate_succ_apply]
    rw [ih (mmSlli1 v) (by omega)]
    have h1 : (8 * k + 7 - s) % 64 ≠ 0 := by omega
    have h2 : 8 * k + 7 - s < 128 := by omega
    have h3 : 8 * k + 7 - s - 1 = 8 * k + 7 - (s + 1) := by omega
    rw [testBit_mmSlli1 _ _ h1 h2, h3]

theorem xor7_lt {i : Nat} (h : i < 8) : i ^^^ 7 < 8 := by
  interval_cases i <;> decide

theorem xor7_inj {a b : Nat} (h : a ^^^ 7 = b ^^^ 7) : a = b := by
  have := congrArg (fun t => t ^^^ 7) h
  simpa [Nat.xor_cancel_right] using this

theorem add8_xor7 {k : Nat} (h : k < 8) : (8 + k) ^^^ 7 = 8 + (k ^^^ 7) := by
  interval_cases k <;> decide

theorem mkByte_congr {g g' : Nat → Bool} (h : ∀ k, k < 8 → g k = g' k) :
    mkByte g = mkByte g' := by
  unfold mkByte
  rw [h 0 (by omega), h 1 (by omega), h 2 (by omega), h 3 (by omega), h 4 (by omega),
    h 5 (by omega), h 6 (by omega), h 7 (by omega)]

theorem emitTile16_mem (n tmp nrb rr cc : Nat) (w : Nat × Nat)
    (hw : w ∈ emitTile16 n tmp nrb rr cc) :
    ∃ i e, i < n ∧ e < 2 ∧ w.1 = (cc + (i ^^^ 7)) * nrb + rr / 8 + e := by
  induction n generalizing tmp with
  | zero => simp [emitTile16] at hw
  | succ n ih =>
    simp only [emitTile16, List.mem_cons] at hw
    rcases hw with h | h | h
    · exact ⟨n, 0, by omega, by omega, by simp [h]⟩
    · exact ⟨n, 1, by omega, by omega, by simp [h]⟩
    · obtain ⟨i, e, hi, he, haddr⟩ := ih _ h
      exact ⟨i, e, by omega, he, haddr⟩

theorem emitTile8x16_mem (n tmp nrb rr cc : Nat) (w : Nat × Nat)
    (hw : w ∈ emitTile8x16 n tmp nrb rr cc) :
    ∃ i e, i < n ∧ e < 2 ∧ w.1 = (cc + (i ^^^ 7) + 8 * e) * nrb + rr / 8 := by
  induction n generalizing tmp with
  | zero => simp [emitTile8x16] at hw
  | succ n ih =>
    simp only [emitTile8x16, List.mem_cons] at hw
    rcases hw with h | h | h
    · exact ⟨n, 0, by omega, by omega, by simp [h]⟩
    · exact ⟨n, 1, by omega, by omega, by simp [h]⟩
    · obtain ⟨i, e, hi, he, haddr⟩ := ih _ h
      exact ⟨i, e, by omega, he, haddr⟩

theorem emitTile8_mem (n tmp nrb rr cc : Nat) (w : Nat × Nat)
    (hw : w ∈ emitTile8 n tmp nrb rr cc) :
    ∃ i, i < n ∧ w.1 = (cc + (i ^^^ 7)) * nrb + rr / 8 := by
  induction n generalizing tmp with
  | zero => simp [emitTile8] at hw
  | succ n ih =>
    simp only [emitTile8, List.mem_cons] at hw
    rcases hw with h | h
    · exact ⟨n, by omega, by simp [h]⟩
    · obtain ⟨i, hi, haddr⟩ := ih _ h
      exact ⟨i, by omega, haddr⟩

theorem empEmitTile16_mem (n tmp nrb rr cc : Nat) (w : Nat × Nat)
    (hw : w ∈ empEmitTile16 n tmp nrb rr cc) :
    ∃ i e, i < n ∧ e < 2 ∧ w.1 = (cc + i) * nrb + rr / 8 + e := by
  induction n generalizing tmp with
  | zero => simp [empEmitTile16] at hw
  | succ n ih =>
    simp only [empEmitTile16, List.mem_cons] at hw
    rcases hw with h | h | h
    · exact ⟨n, 0, by omega, by omega, by simp [h]⟩
    · exact ⟨n, 1, by omega, by omega, by simp [h]⟩
    · obtain ⟨i, e, hi, he, haddr⟩ := ih _ h
      exact ⟨i, e, by omega, he, haddr⟩

theorem empEmitTile8x16_mem (n tmp nrb rr cc : Nat) (w : Nat × Nat)
    (hw : w ∈ empEmitTile8x16 n tmp nrb rr cc) :
    ∃ i e, i < n ∧ e < 2 ∧ w.1 = (cc + i + 8 * e) * nrb + rr / 8 := by
  induction n generalizing tmp with
  | zero => simp [empEmitTile8x16] at hw
  | succ n ih =>
    simp only [empEmitTile8x16, List.mem_cons] at hw
    rcases hw with h | h | h
    · exact ⟨n, 0, by omega, by omega, by simp [h]⟩
    · exact ⟨n, 1, by omega, by omega, by simp [h]⟩
    · obtain ⟨i, e, hi, he, haddr⟩ := ih _ h
      exact ⟨i, e, by omega, he, haddr⟩

theorem empEmitTile8_mem (n tmp nrb rr cc : Nat) (w : Nat × Nat)
    (hw : w ∈ empEmitTile8 n tmp nrb rr cc) :
    ∃ i, i < n ∧ w.1 = (cc + i) * nrb + rr / 8 := by
  induction n generalizing tmp with
  | zero => simp [empEmitTile8] at hw
  | succ n ih =>
    simp only [empEmitTile8, List.mem_cons] at hw
    rcases hw with h | h
    · exact ⟨n, by omega, by simp [h]⟩
    · obtain ⟨i, hi, haddr⟩ := ih _ h
      exact ⟨i, by omega, haddr⟩

theorem emitTile16_lookup (n : Nat) (hn : n ≤ 8) (tmp nrb rr cc i0 e : Nat)
    (hi0 : i0 < n) (he : e < 2) (hr : rr / 8 + 1 < nrb) (out : Nat → Nat) :
    applyW out (emitTile16 n tmp nrb rr cc) ((cc + (i0 ^^^ 7)) * nrb + rr / 8 + e) =
      (if e = 0 then mmMovemaskEpi8 (mmSlli1^[n - 1 - i0] tmp) % 256
       else mmMovemaskEpi8 (mmSlli1^[n - 1 - i0] tmp) / 256) := by
  induction n generalizing tmp out with
  | zero => omega
  | succ n ih =>
    simp only [emitTile16]
    rw [applyW_cons, applyW_cons]
    rcases Nat.lt_or_ge i0 n with hlt | hge
    · rw [ih (by omega) (mmSlli1 tmp) hlt]
      have hit : mmSlli1^[n - 1 - i0] (mmSlli1 tmp) = mmSlli1^[n + 1 - 1 - i0] tmp := by
        rw [← Function.iterate_succ_apply]
        congr 1
        omega
      rw [hit]
    · have hi0n : i0 = n := by omega
      rw [hi0n]
      have hrest : ∀ w ∈ emitTile16 n (mmSlli1 tmp) nrb rr cc,
          w.1 ≠ (cc + (n ^^^ 7)) * nrb + rr / 8 + e := by
        intro w hw
        obtain ⟨i, e', hi, he', haddr⟩ := emitTile16_mem n _ nrb rr cc w hw
        rw [haddr]
        have hd : cc + (i ^^^ 7) ≠ cc + (n ^^^ 7) := by
          intro hcontra
          exact absurd (xor7_inj (by omega : i ^^^ 7 = n ^^^ 7)) (by omega)
        have h1 : rr / 8 + e' < nrb := by omega
        have h2 : rr / 8 + e < nrb := by omega
        have := addr_ne2 (cc + (i ^^^ 7)) (cc + (n ^^^ 7)) (rr / 8 + e') (rr / 8 + e)
          nrb (Or.inl hd) h1 h2
        omega
      rw [applyW_notin _ _ _ hrest]
      have hstep : n + 1 - 1 - n = 0 := by omega
      rw [hstep, Function.iterate_zero_apply]
      interval_cases e
      · rw [bufWrite_other _ _ _ _ (by omega), if_pos rfl]
        have : (cc + (n ^^^ 7)) * nrb + rr / 8 + 0 = (cc + (n ^^^ 7)) * nrb + rr / 8 := by
          omega
        rw [this, bufWrite_same]
      · rw [if_neg (by omega)]
        exact bufWrite_same _ _ _

theorem emitTile8x16_lookup (n : Nat) (hn : n ≤ 8) (tmp nrb rr cc i0 e : Nat)
    (hi0 : i0 < n) (he : e < 2) (hr : rr / 8 < nrb) (out : Nat → Nat) :
    applyW out (emitTile8x16 n tmp nrb rr cc) ((cc + (i0 ^^^ 7) + 8 * e) * nrb + rr / 8) =
      (if e = 0 then mmMovemaskEpi8 (mmSlli1^[n - 1 - i0] tmp) % 256
       else mmMovemaskEpi8 (mmSlli1^[n - 1 - i0] tmp) / 256) := by
  induction n generalizing tmp out with
  | zero => omega
  | succ n ih =>
    simp only [emitTile8x16]
    rw [applyW_cons, applyW_cons]
    rcases Nat.lt_or_ge i0 n with hlt | hge
    · rw [ih (by omega) (mmSlli1 tmp) hlt]
      have hit : mmSlli1^[n - 1 - i0] (mmSlli1 tmp) = mmSlli1^[n + 1 - 1 - i0] tmp := by
        rw [← Function.iterate_succ_apply]
        congr 1
        omega
      rw [hit]
    · have hi0n : i0 = n := by omega
      rw [hi0n]
      have hxlt := xor7_lt (show n < 8 by omega)
      have hxlt0 := xor7_lt (show i0 < 8 by omega)
      have hrest : ∀ w ∈ emitTile8x16 n (mmSlli1 tmp) nrb rr cc,
          w.1 ≠ (cc + (n ^^^ 7) + 8 * e) * nrb + rr / 8 := by
        intro w hw
        obtain ⟨i, e', hi, he', haddr⟩ := emitTile8x16_mem n _ nrb rr cc w hw
        rw [haddr]
        have hxi := xor7_lt (show i < 8 by omega)
        have hd : cc + (i ^^^ 7) + 8 * e' ≠ cc + (n ^^^ 7) + 8 * e := by
          intro hcontra
          have he'e : e' = e := by omega
          have : i ^^^ 7 = n ^^^ 7 := by omega
          exact absurd (xor7_inj this) (by omega)
        exact addr_ne2 _ _ _ _ nrb (Or.inl hd) hr hr
      rw [applyW_notin _ _ _ hrest]
      have hstep : n + 1 - 1 - n = 0 := by omega
      rw [hstep, Function.iterate_zero_apply]
      interval_cases e
      · rw [if_pos rfl]
        rw [bufWrite_other _ _ _ _ ?hne]
        case hne =>
          apply addr_ne2 _ _ _ _ nrb (Or.inl ?_) hr hr
          omega
        have : cc + (n ^^^ 7) + 8 * 0 = cc + (n ^^^ 7) := by omega
        rw [this, bufWrite_same]
      · rw [if_neg (by omega)]
        have : cc + (n ^^^ 7) + 8 * 1 = cc + (n ^^^ 7) + 8 := by omega
        rw [this, bufWrite_same]

theorem emitTile8_lookup (n : Nat) (hn : n ≤ 8) (tmp nrb rr cc i0 : Nat)
    (hi0 : i0 < n) (hr : rr / 8 < nrb) (out : Nat → Nat) :
    applyW out (emitTile8 n tmp nrb rr cc) ((cc + (i0 ^^^ 7)) * nrb + rr / 8) =
      mmMovemaskEpi8 (mmSlli1^[n - 1 - i0] tmp) % 256 := by
  induction n generalizing tmp out with
  | zero => omega
  | succ n ih =>
    simp only [emitTile8]
    rw [applyW_cons]
    rcases Nat.lt_or_ge i0 n with hlt | hge
    · rw [ih (by omega) (mmSlli1 tmp) hlt]
      have hit : mmSlli1^[n - 1 - i0] (mmSlli1 tmp) = mmSlli1^[n + 1 - 1 - i0] tmp := by
        rw [← Function.iterate_succ_apply]
        congr 1
        omega
      rw [hit]
    · have hi0n : i0 = n := by omega
      rw [hi0n]
      have hrest : ∀ w ∈ emitTile8 n (mmSlli1 tmp) nrb rr cc,
          w.1 ≠ (cc + (n ^^^ 7)) * nrb + rr / 8 := by
        intro w hw
        obtain ⟨i, hi, haddr⟩ := emitTile8_mem n _ nrb rr cc w hw
        rw [haddr]
        have hd : cc + (i ^^^ 7) ≠ cc + (n ^^^ 7) := by
          intro hcontra
          exact absurd (xor7_inj (by omega : i ^^^ 7 = n ^^^ 7)) (by omega)
        exact addr_ne2 _ _ _ _ nrb (Or.inl hd) hr hr
      rw [applyW_notin _ _ _ hrest]
      have hstep : n + 1 - 1 - n = 0 := by omega
      rw [hstep, Function.iterate_zero_apply]
      exact bufWrite_same _ _ _

theorem empEmitTile16_lookup (n : Nat) (hn : n ≤ 8) (tmp nrb rr cc i0 e : Nat)
    (hi0 : i0 < n) (he : e < 2) (hr : rr / 8 + 1 < nrb) (out : Nat → Nat) :
    applyW out (empEmitTile16 n tmp nrb rr cc) ((cc + i0) * nrb + rr / 8 + e) =
      (if e = 0 then mmMovemaskEpi8 (mmSlli1^[n - 1 - i0] tmp) % 256
       else mmMovemaskEpi8 (mmSlli1^[n - 1 - i0] tmp) / 256) := by
  induction n generalizing tmp out with
  | zero => omega
  | succ n ih =>
    simp only [empEmitTile16]
    rw [applyW_cons, applyW_cons]
    rcases Nat.lt_or_ge i0 n with hlt | hge
    · rw [ih (by omega) (mmSlli1 tmp) hlt]
      have hit : mmSlli1^[n - 1 - i0] (mmSlli1 tmp) = mmSlli1^[n + 1 - 1 - i0] tmp := by
        rw [← Function.iterate_succ_apply]
        congr 1
        omega
      rw [hit]
    · have hi0n : i0 = n := by omega
      rw [hi0n]
      have hrest : ∀ w ∈ empEmitTile16 n (mmSlli1 tmp) nrb rr cc,
          w.1 ≠ (cc + n) * nrb + rr / 8 + e := by
        intro w hw
        obtain ⟨i, e', hi, he', haddr⟩ := empEmitTile16_mem n _ nrb rr cc w hw
        rw [haddr]
        have h1 : rr / 8 + e' < nrb := by omega
        have h2 : rr / 8 + e < nrb := by omega
        have := addr_ne2 (cc + i) (cc + n) (rr / 8 + e') (rr / 8 + e) nrb
          (Or.inl (by omega)) h1 h2
        omega
      rw [applyW_notin _ _ _ hrest]
      have hstep : n + 1 - 1 - n = 0 := by omega
      rw [hstep, Function.iterate_zero_apply]
      interval_cases e
      · rw [bufWrite_other _ _ _ _ (by omega), if_pos rfl]
        have : (cc + n) * nrb + rr / 8 + 0 = (cc + n) * nrb + rr / 8 := by omega
        rw [this, bufWrite_same]
      · rw [if_neg (by omega)]
        exact bufWrite_same _ _ _

theorem empEmitTile8x16_lookup (n : Nat) (hn : n ≤ 8) (tmp nrb rr cc i0 e : Nat)
    (hi0 : i0 < n) (he : e < 2) (hr : rr / 8 < nrb) (out : Nat → Nat) :
    applyW out (empEmitTile8x16 n tmp nrb rr cc) ((cc + i0 + 8 * e) * nrb + rr / 8) =
      (if e = 0 then mmMovemaskEpi8 (mmSlli1^[n - 1 - i0] tmp) % 256
       else mmMovemaskEpi8 (mmSlli1^[n - 1 - i0] tmp) / 256) := by
  induction n generalizing tmp out with
  | zero => omega
  | succ n ih =>
    simp only [empEmitTile8x16]
    rw [applyW_cons, applyW_cons]
    rcases Nat.lt_or_ge i0 n with hlt | hge
    · rw [ih (by omega) (mmSlli1 tmp) hlt]
      have hit : mmSlli1^[n - 1 - i0] (mmSlli1 tmp) = mmSlli1^[n + 1 - 1 - i0] tmp := by
        rw [← Function.iterate_succ_apply]
        congr 1
        omega
      rw [hit]
    · have hi0n : i0 = n := by omega
      rw [hi0n]
      have hrest : ∀ w ∈ empEmitTile8x16 n (mmSlli1 tmp) nrb rr cc,
          w.1 ≠ (cc + n + 8 * e) * nrb + rr / 8 := by
        intro w hw
        obtain ⟨i, e', hi, he', haddr⟩ := empEmitTile8x16_mem n _ nrb rr cc w hw
        rw [haddr]
        exact addr_ne2 _ _ _ _ nrb (Or.inl (by omega)) hr hr
      rw [applyW_notin _ _ _ hrest]
      have hstep : n + 1 - 1 - n = 0 := by omega
      rw [hstep, Function.iterate_zero_apply]
      interval_cases e
      · rw [if_pos rfl]
        rw [bufWrite_other _ _ _ _ (addr_ne2 _ _ _ _ nrb (Or.inl (by omega)) hr hr)]
        have : cc + n + 8 * 0 = cc + n := by omega
        rw [this, bufWrite_same]
      · rw [if_neg (by omega)]
        have : cc + n + 8 * 1 = cc + n + 8 := by omega
        rw [this, bufWrite_same]

theorem empEmitTile8_lookup (n : Nat) (hn : n ≤ 8) (tmp nrb rr cc i0 : Nat)
    (hi0 : i0 < n) (hr : rr / 8 < nrb) (out : Nat → Nat) :
    applyW out (empEmitTile8 n tmp nrb rr cc) ((cc + i0) * nrb + rr / 8) =
      mmMovemaskEpi8 (mmSlli1^[n - 1 - i0] tmp) % 256 := by
  induction n generalizing tmp out with
  | zero => omega
  | succ n ih =>
    simp only [empEmitTile8]
    rw [applyW_cons]
    rcases Nat.lt_or_ge i0 n with hlt | hge
    · rw [ih (by omega) (mmSlli1 tmp) hlt]
      have hit : mmSlli1^[n - 1 - i0] (mmSlli1 tmp) = mmSlli1^[n + 1 - 1 - i0] tmp := by
        rw [← Function.iterate_succ_apply]
        congr 1
        omega
      rw [hit]
    · have hi0n : i0 = n := by omega
      rw [hi0n]
      have hrest : ∀ w ∈ empEmitTile8 n (mmSlli1 tmp) nrb rr cc,
          w.1 ≠ (cc + n) * nrb + rr / 8 := by
        intro w hw
        obtain ⟨i, hi, haddr⟩ := empEmitTile8_mem n _ nrb rr cc w hw
        rw [haddr]
        exact addr_ne2 _ _ _ _ nrb (Or.inl (by omega)) hr hr
      rw [applyW_notin _ _ _ hrest]
      have hstep : n + 1 - 1 - n = 0 := by omega
      rw [hstep, Function.iterate_zero_apply]
      exact bufWrite_same _ _ _

theorem shifted_pack_bit (L : List Nat) (i0 k : Nat) (hi0 : i0 < 8) (hk16 : k < 16)
    (hkL : k < L.length) :
    (mmSlli1^[7 - i0] (packBytes L)).testBit (8 * k + 7) = (L.getD k 0).testBit i0 := by
  rw [testBit_mmSlli1_iter _ _ _ (by omega) hk16]
  have h1 : 8 * k + 7 - (7 - i0) = 8 * k + i0 := by omega
  rw [h1, testBit_packBytes L k i0 hkL hi0]

theorem tile16_value (inp : Nat → Nat) (ncb rr cc i0 e : Nat) (hi0 : i0 < 8) (he : e < 2) :
    (if e = 0 then mmMovemaskEpi8 (mmSlli1^[8 - 1 - i0] (loadTile16 inp ncb rr cc)) % 256
     else mmMovemaskEpi8 (mmSlli1^[8 - 1 - i0] (loadTile16 inp ncb rr cc)) / 256) =
    mkByte (fun k => (inp ((rr + 8 * e + (k ^^^ 7)) * ncb + cc / 8)).testBit i0) := by
  have h81 : 8 - 1 - i0 = 7 - i0 := by omega
  have hlen : (((List.range 16).map
      (fun i => inpByte inp ncb (rr + (i ^^^ 7)) cc))).length = 16 := by simp
  interval_cases e
  · rw [if_pos rfl, h81, mmMovemaskEpi8_mod]
    apply mkByte_congr
    intro k hk
    rw [loadTile16, shifted_pack_bit _ i0 k hi0 (by omega) (by rw [hlen]; omega),
      getD_map_range _ _ _ (by omega)]
    unfold inpByte
    have : rr + (k ^^^ 7) = rr + 8 * 0 + (k ^^^ 7) := by omega
    rw [← this]
  · rw [if_neg (by omega), h81, mmMovemaskEpi8_div]
    apply mkByte_congr
    intro k hk
    have h8k : 8 * (8 + k) + 7 = 8 * (8 + k) + 7 := rfl
    rw [loadTile16, shifted_pack_bit _ i0 (8 + k) hi0 (by omega) (by rw [hlen]; omega),
      getD_map_range _ _ _ (by omega)]
    unfold inpByte
    rw [add8_xor7 (by omega)]
    have : rr + (8 + (k ^^^ 7)) = rr + 8 * 1 + (k ^^^ 7) := by omega
    rw [this]

theorem tile8x16_value (inp : Nat → Nat) (ncb rr cc i0 e : Nat) (hi0 : i0 < 8) (he : e < 2) :
    (if e = 0 then mmMovemaskEpi8 (mmSlli1^[8 - 1 - i0] (loadTile8x16 inp ncb rr cc)) % 256
     else mmMovemaskEpi8 (mmSlli1^[8 - 1 - i0] (loadTile8x16 inp ncb rr cc)) / 256) =
    mkByte (fun k => (inp ((rr + (k ^^^ 7)) * ncb + cc / 8 + e)).testBit i0) := by
  have h81 : 8 - 1 - i0 = 7 - i0 := by omega
  have hlen : (((List.range 8).map (fun i => inp ((rr + (i ^^^ 7)) * ncb + cc / 8))) ++
      ((List.range 8).map (fun i => inp ((rr + (i ^^^ 7)) * ncb + cc / 8 + 1)))).length = 16 := by
    simp
  interval_cases e
  · rw [if_pos rfl, h81, mmMovemaskEpi8_mod]
    apply mkByte_congr
    intro k hk
    rw [loadTile8x16, shifted_pack_bit _ i0 k hi0 (by omega) (by rw [hlen]; omega)]
    rw [List.getD_append _ _ _ _ (by simp; omega)]
    rw [getD_map_range _ _ _ (by omega)]
    have : (rr + (k ^^^ 7)) * ncb + cc / 8 = (rr + (k ^^^ 7)) * ncb + cc / 8 + 0 := by omega
    rw [← this]
  · rw [if_neg (by omega), h81, mmMovemaskEpi8_div]
    apply mkByte_congr
    intro k hk
    rw [loadTile8x16, shifted_pack_bit _ i0 (8 + k) hi0 (by omega) (by rw [hlen]; omega)]
    rw [List.getD_append_right _ _ _ _ (by simp)]
    have hidx : 8 + k - ((List.range 8).map
        (fun i => inp ((rr + (i ^^^ 7)) * ncb + cc / 8))).length = k := by simp
    rw [hidx, getD_map_range _ _ _ (by omega)]

theorem tile8_value (inp : Nat → Nat) (ncb rr cc i0 : Nat) (hi0 : i0 < 8) :
    mmMovemaskEpi8 (mmSlli1^[8 - 1 - i0] (loadTile8 inp ncb rr cc)) % 256 =
    mkByte (fun k => (inp ((rr + (k ^^^ 7)) * ncb + cc / 8)).testBit i0) := by
  have h81 : 8 - 1 - i0 = 7 - i0 := by omega
  rw [h81, mmMovemaskEpi8_mod]
  apply mkByte_congr
  intro k hk
  rw [loadTile8, shifted_pack_bit _ i0 k hi0 (by omega) (by simp; omega),
    getD_map_range _ _ _ (by omega)]
  rfl

theorem empTile16_value (inp : Nat → Nat) (ncb rr cc i0 e : Nat) (hi0 : i0 < 8) (he : e < 2) :
    (if e = 0 then mmMovemaskEpi8 (mmSlli1^[8 - 1 - i0] (empLoadTile16 inp ncb rr cc)) % 256
     else mmMovemaskEpi8 (mmSlli1^[8 - 1 - i0] (empLoadTile16 inp ncb rr cc)) / 256) =
    mkByte (fun k => (inp ((rr + 8 * e + k) * ncb + cc / 8)).testBit i0) := by
  have h81 : 8 - 1 - i0 = 7 - i0 := by omega
  have hlen : (((List.range 16).map (fun i => inpByte inp ncb (rr + i) cc))).length = 16 := by
    simp
  interval_cases e
  · rw [if_pos rfl, h81, mmMovemaskEpi8_mod]
    apply mkByte_congr
    intro k hk
    rw [empLoadTile16, shifted_pack_bit _ i0 k hi0 (by omega) (by rw [hlen]; omega),
      getD_map_range _ _ _ (by omega)]
    unfold inpByte
    have : rr + k = rr + 8 * 0 + k := by omega
    rw [← this]
  · rw [if_neg (by omega), h81, mmMovemaskEpi8_div]
    apply mkByte_congr
    intro k hk
    rw [empLoadTile16, shifted_pack_bit _ i0 (8 + k) hi0 (by omega) (by rw [hlen]; omega),
      getD_map_range _ _ _ (by omega)]
    unfold inpByte
    have : rr + (8 + k) = rr + 8 * 1 + k := by omega
    rw [this]

theorem empTile8x16_value (inp : Nat → Nat) (ncb rr cc i0 e : Nat) (hi0 : i0 < 8) (he : e < 2) :
    (if e = 0 then mmMovemaskEpi8 (mmSlli1^[8 - 1 - i0] (empLoadTile8x16 inp ncb rr cc)) % 256
     else mmMovemaskEpi8 (mmSlli1^[8 - 1 - i0] (empLoadTile8x16 inp ncb rr cc)) / 256) =
    mkByte (fun k => (inp ((rr + k) * ncb + cc / 8 + e)).testBit i0) := by
  have h81 : 8 - 1 - i0 = 7 - i0 := by omega
  have hlen : (((List.range 8).map (fun i => inp ((rr + i) * ncb + cc / 8))) ++
      ((List.range 8).map (fun i => inp ((rr + i) * ncb + cc / 8 + 1)))).length = 16 := by
    simp
  interval_cases e
  · rw [if_pos rfl, h81, mmMovemaskEpi8_mod]
    apply mkByte_congr
    intro k hk
    rw [empLoadTile8x16, shifted_pack_bit _ i0 k hi0 (by omega) (by rw [hlen]; omega)]
    rw [List.getD_append _ _ _ _ (by simp; omega)]
    rw [getD_map_range _ _ _ (by omega)]
    have : (rr + k) * ncb + cc / 8 = (rr + k) * ncb + cc / 8 + 0 := by omega
    rw [← this]
  · rw [if_neg (by omega), h81, mmMovemaskEpi8_div]
    apply mkByte_congr
    intro k hk
    rw [empLoadTile8x16, shifted_pack_bit _ i0 (8 + k) hi0 (by omega) (by rw [hlen]; omega)]
    rw [List.getD_append_right _ _ _ _ (by simp)]
    have hidx : 8 + k - ((List.range 8).map
        (fun i => inp ((rr + i) * ncb + cc / 8))).length = k := by simp
    rw [hidx, getD_map_range _ _ _ (by omega)]

theorem empTile8_value (inp : Nat → Nat) (ncb rr cc i0 : Nat) (hi0 : i0 < 8) :
    mmMovemaskEpi8 (mmSlli1^[8 - 1 - i0] (empLoadTile8 inp ncb rr cc)) % 256 =
    mkByte (fun k => (inp ((rr + k) * ncb + cc / 8)).testBit i0) := by
  have h81 : 8 - 1 - i0 = 7 - i0 := by omega
  rw [h81, mmMovemaskEpi8_mod]
  apply mkByte_congr
  intro k hk
  rw [empLoadTile8, shifted_pack_bit _ i0 k hi0 (by omega) (by simp; omega),
    getD_map_range _ _ _ (by omega)]
  rfl

theorem BMT_main_lookup (inp : Nat → Nat) (nrows ncols : Nat) (h8c : ncols % 8 = 0)
    (Y Xb : Nat) (hY : Y < ncols) (hXb : Xb < 2 * (nrows / 16))
    (hnrb : 2 * (nrows / 16) ≤ nrows / 8) (o : Nat → Nat) :
    applyW o ((List.range (nrows / 16)).flatMap (fun a =>
      (List.range (ncols / 8)).flatMap (fun c =>
        emitTile16 8 (loadTile16 inp (ncols / 8) (16 * a) (8 * c)) (nrows / 8)
          (16 * a) (8 * c)))) (Y * (nrows / 8) + Xb) =
    mkByte (fun k =>
      (inp ((8 * Xb + (k ^^^ 7)) * (ncols / 8) + Y / 8)).testBit ((Y % 8) ^^^ 7)) := by
  set nrb := nrows / 8 with hnrbdef
  set ncb := ncols / 8 with hncbdef
  have hXbnrb : Xb < nrb := by omega
  apply applyW_range_flatMap (nrows / 16) (Xb / 2) _ _ _ _ (by omega)
  · intro o2
    apply applyW_range_flatMap (ncols / 8) (Y / 8) _ _ _ _ (by omega)
    · intro o3
      have hi0 : (Y % 8) ^^^ 7 < 8 := xor7_lt (by omega)
      have hq : Y * nrb + Xb =
          (8 * (Y / 8) + (((Y % 8) ^^^ 7) ^^^ 7)) * nrb + 16 * (Xb / 2) / 8 + Xb % 2 := by
        rw [Nat.xor_cancel_right]
        have h1 : 8 * (Y / 8) + Y % 8 = Y := by omega
        rw [h1]
        omega
      rw [hq, emitTile16_lookup 8 (by omega) _ nrb (16 * (Xb / 2)) (8 * (Y / 8))
        ((Y % 8) ^^^ 7) (Xb % 2) hi0 (by omega) (by omega) o3]
      rw [tile16_value inp ncb (16 * (Xb / 2)) (8 * (Y / 8)) ((Y % 8) ^^^ 7) (Xb % 2) hi0
        (by omega)]
      apply mkByte_congr
      intro k hk
      have h2 : 16 * (Xb / 2) + 8 * (Xb % 2) + (k ^^^ 7) = 8 * Xb + (k ^^^ 7) := by omega
      have h3 : 8 * (Y / 8) / 8 = Y / 8 := by omega
      rw [h2, h3]
    · intro c hc hcne w hw
      obtain ⟨i, e, hi, he, haddr⟩ := emitTile16_mem 8 _ nrb (16 * (Xb / 2)) (8 * c) w hw
      rw [haddr]
      have hx := xor7_lt (show i < 8 by omega)
      have hD : 8 * c + (i ^^^ 7) ≠ Y := by omega
      have hr0 : 16 * (Xb / 2) / 8 + e < nrb := by omega
      have := addr_ne2 (8 * c + (i ^^^ 7)) Y (16 * (Xb / 2) / 8 + e) Xb nrb
        (Or.inl hD) hr0 hXbnrb
      omega
  · intro a ha hane w hw
    rw [List.mem_flatMap] at hw
    obtain ⟨c, hc, hwc⟩ := hw
    have hclt : c < ncb := List.mem_range.mp hc
    obtain ⟨i, e, hi, he, haddr⟩ := emitTile16_mem 8 _ nrb (16 * a) (8 * c) w hwc
    rw [haddr]
    have hr0 : 16 * a / 8 + e < nrb := by omega
    have hrne : 16 * a / 8 + e ≠ Xb := by omega
    have := addr_ne2 (8 * c + (i ^^^ 7)) Y (16 * a / 8 + e) Xb nrb
      (Or.inr hrne) hr0 hXbnrb
    omega

theorem BMT_main_frame (inp : Nat → Nat) (nrows ncols : Nat)
    (q : Nat) (hq : ∀ D r, r < nrows / 8 → r < 2 * (nrows / 16) → q ≠ D * (nrows / 8) + r)
    (o : Nat → Nat) :
    applyW o ((List.range (nrows / 16)).flatMap (fun a =>
      (List.range (ncols / 8)).flatMap (fun c =>
        emitTile16 8 (loadTile16 inp (ncols / 8) (16 * a) (8 * c)) (nrows / 8)
          (16 * a) (8 * c)))) q = o q := by
  apply applyW_range_flatMap_frame
  intro a ha w hw
  rw [List.mem_flatMap] at hw
  obtain ⟨c, hc, hwc⟩ := hw
  obtain ⟨i, e, hi, he, haddr⟩ := emitTile16_mem 8 _ _ (16 * a) (8 * c) w hwc
  rw [haddr]
  have := hq (8 * c + (i ^^^ 7)) (16 * a / 8 + e) (by omega) (by omega)
  omega

theorem BMT_rem16_lookup (inp : Nat → Nat) (nrows ncols : Nat) (h8c : ncols % 8 = 0)
    (Y : Nat) (hY : Y < 16 * (ncols / 16)) (hr : 16 * (nrows / 16) / 8 < nrows / 8)
    (o : Nat → Nat) :
    applyW o ((List.range (ncols / 16)).flatMap (fun c =>
      emitTile8x16 8 (loadTile8x16 inp (ncols / 8) (16 * (nrows / 16)) (16 * c))
        (nrows / 8) (16 * (nrows / 16)) (16 * c)))
      (Y * (nrows / 8) + 16 * (nrows / 16) / 8) =
    mkByte (fun k =>
      (inp ((16 * (nrows / 16) + (k ^^^ 7)) * (ncols / 8) + Y / 8)).testBit
        ((Y % 8) ^^^ 7)) := by
  set nrb := nrows / 8 with hnrbdef
  set ncb := ncols / 8 with hncbdef
  set rr := 16 * (nrows / 16) with hrrdef
  apply applyW_range_flatMap (ncols / 16) (Y / 16) _ _ _ _ (by omega)
  · intro o2
    have hi0 : (Y % 8) ^^^ 7 < 8 := xor7_lt (by omega)
    have hq : Y * nrb + rr / 8 =
        (16 * (Y / 16) + (((Y % 8) ^^^ 7) ^^^ 7) + 8 * (Y % 16 / 8)) * nrb + rr / 8 := by
      rw [Nat.xor_cancel_right]
      have h1 : 16 * (Y / 16) + Y % 8 + 8 * (Y % 16 / 8) = Y := by omega
      rw [h1]
    rw [hq, emitTile8x16_lookup 8 (by omega) _ nrb rr (16 * (Y / 16)) ((Y % 8) ^^^ 7)
      (Y % 16 / 8) hi0 (by omega) hr o2]
    rw [tile8x16_value inp ncb rr (16 * (Y / 16)) ((Y % 8) ^^^ 7) (Y % 16 / 8) hi0 (by omega)]
    apply mkByte_congr
    intro k hk
    have h2 : 16 * (Y / 16) / 8 + Y % 16 / 8 = Y / 8 := by omega
    rw [Nat.add_assoc, h2]
  · intro c hc hcne w hw
    obtain ⟨i, e, hi, he, haddr⟩ := emitTile8x16_mem 8 _ nrb rr (16 * c) w hw
    rw [haddr]
    have hx := xor7_lt (show i < 8 by omega)
    have hD : 16 * c + (i ^^^ 7) + 8 * e ≠ Y := by omega
    have := addr_ne2 (16 * c + (i ^^^ 7) + 8 * e) Y (rr / 8) (rr / 8) nrb
      (Or.inl hD) hr hr
    omega

theorem BMT_rem16_frame (inp : Nat → Nat) (nrows ncols : Nat) (q : Nat)
    (hq : ∀ D, q ≠ D * (nrows / 8) + 16 * (nrows / 16) / 8) (o : Nat → Nat) :
    applyW o ((List.range (ncols / 16)).flatMap (fun c =>
      emitTile8x16 8 (loadTile8x16 inp (ncols / 8) (16 * (nrows / 16)) (16 * c))
        (nrows / 8) (16 * (nrows / 16)) (16 * c))) q = o q := by
  apply applyW_range_flatMap_frame
  intro c hc w hw
  obtain ⟨i, e, hi, he, haddr⟩ := emitTile8x16_mem 8 _ _ (16 * (nrows / 16)) (16 * c) w hw
  rw [haddr]
  have := hq (16 * c + (i ^^^ 7) + 8 * e)
  omega

theorem BMT_rem8_lookup (inp : Nat → Nat) (nrows ncols : Nat) (h16c : ncols % 16 = 8)
    (Y : Nat) (hYlo : 16 * (ncols / 16) ≤ Y) (hYhi : Y < ncols)
    (hr : 16 * (nrows / 16) / 8 < nrows / 8) (o : Nat → Nat) :
    applyW o (emitTile8 8 (loadTile8 inp (ncols / 8) (16 * (nrows / 16)) (16 * (ncols / 16)))
      (nrows / 8) (16 * (nrows / 16)) (16 * (ncols / 16)))
      (Y * (nrows / 8) + 16 * (nrows / 16) / 8) =
    mkByte (fun k =>
      (inp ((16 * (nrows / 16) + (k ^^^ 7)) * (ncols / 8) + Y / 8)).testBit
        ((Y % 8) ^^^ 7)) := by
  set nrb := nrows / 8 with hnrbdef
  set ncb := ncols / 8 with hncbdef
  set rr := 16 * (nrows / 16) with hrrdef
  set cc := 16 * (ncols / 16) with hccdef
  have hi0 : (Y % 8) ^^^ 7 < 8 := xor7_lt (by omega)
  have hY8 : Y % 8 = Y - cc := by omega
  have hq : Y * nrb + rr / 8 = (cc + (((Y % 8) ^^^ 7) ^^^ 7)) * nrb + rr / 8 := by
    rw [Nat.xor_cancel_right]
    have h1 : cc + Y % 8 = Y := by omega
    rw [h1]
  rw [hq, emitTile8_lookup 8 (by omega) _ nrb rr cc ((Y % 8) ^^^ 7) hi0 hr o]
  rw [tile8_value inp ncb rr cc ((Y % 8) ^^^ 7) hi0]
  apply mkByte_congr
  intro k hk
  have h2 : cc / 8 = Y / 8 := by omega
  rw [h2]

theorem BMT_rem8_frame (inp : Nat → Nat) (nrows ncols : Nat) (q : Nat)
    (hq : ∀ d, d < 8 → q ≠ (16 * (ncols / 16) + d) * (nrows / 8) + 16 * (nrows / 16) / 8)
    (o : Nat → Nat) :
    applyW o (emitTile8 8 (loadTile8 inp (ncols / 8) (16 * (nrows / 16)) (16 * (ncols / 16)))
      (nrows / 8) (16 * (nrows / 16)) (16 * (ncols / 16))) q = o q := by
  apply applyW_notin
  intro w hw
  obtain ⟨i, hi, haddr⟩ := emitTile8_mem 8 _ _ (16 * (nrows / 16)) (16 * (ncols / 16)) w hw
  rw [haddr]
  have hx := xor7_lt (show i < 8 by omega)
  have := hq (i ^^^ 7) hx
  omega

/-- Byte-level characterisation of `BitMatrixTranspose`: output byte
`(Y, Xb)` (row `Y` of the transposed matrix, byte `Xb` inside the row)
collects, for each bit `k`, the input bit at row `8 Xb + (k ^^^ 7)` and
column `8 (Y / 8) + ((Y % 8) ^^^ 7)`. -/
theorem BitMatrixTranspose_byte (inp out : Nat → Nat) (nrows ncols : Nat)
    (h8r : nrows % 8 = 0) (h8c : ncols % 8 = 0) (Y Xb : Nat)
    (hY : Y < ncols) (hXb : Xb < nrows / 8) :
    BitMatrixTranspose inp nrows ncols out (Y * (nrows / 8) + Xb) =
      mkByte (fun k =>
        (inp ((8 * Xb + (k ^^^ 7)) * (ncols / 8) + Y / 8)).testBit ((Y % 8) ^^^ 7)) := by
  simp only [BitMatrixTranspose]
  by_cases h16 : 16 * (nrows / 16) = nrows
  · rw [if_pos h16]
    exact BMT_main_lookup inp nrows ncols h8c Y Xb hY (by omega) (by omega) out
  · rw [if_neg h16]
    have h16r : nrows % 16 = 8 := by omega
    have hrrlt : 16 * (nrows / 16) / 8 < nrows / 8 := by omega
    by_cases hXbm : Xb < 2 * (nrows / 16)
    · have hq2 : ∀ D, Y * (nrows / 8) + Xb ≠ D * (nrows / 8) + 16 * (nrows / 16) / 8 := by
        intro D
        exact addr_ne2 Y D Xb (16 * (nrows / 16) / 8) (nrows / 8)
          (Or.inr (by omega)) hXb hrrlt
      by_cases h16c : 16 * (ncols / 16) = ncols
      · rw [if_pos h16c, BMT_rem16_frame inp nrows ncols _ hq2,
          BMT_main_lookup inp nrows ncols h8c Y Xb hY hXbm (by omega)]
      · rw [if_neg h16c, BMT_rem8_frame inp nrows ncols _ (fun d hd => hq2 _),
          BMT_rem16_frame inp nrows ncols _ hq2,
          BMT_main_lookup inp nrows ncols h8c Y Xb hY hXbm (by omega)]
    · have hXbeq : Xb = 16 * (nrows / 16) / 8 := by omega
      have hmainfr : ∀ o : Nat → Nat,
          applyW o ((List.range (nrows / 16)).flatMap (fun a =>
            (List.range (ncols / 8)).flatMap (fun c =>
              emitTile16 8 (loadTile16 inp (ncols / 8) (16 * a) (8 * c)) (nrows / 8)
                (16 * a) (8 * c)))) (Y * (nrows / 8) + Xb) =
            o (Y * (nrows / 8) + Xb) := by
        intro o
        apply BMT_main_frame
        intro D r hr1 hr2
        exact (addr_ne2 Y D Xb r (nrows / 8) (Or.inr (by omega)) hXb hr1)
      rw [hXbeq] at hmainfr ⊢
      by_cases h16c : 16 * (ncols / 16) = ncols
      · rw [if_pos h16c, BMT_rem16_lookup inp nrows ncols h8c Y (by omega) hrrlt]
        apply mkByte_congr
        intro k hk
        have h3 : 16 * (nrows / 16) + (k ^^^ 7) =
            8 * (16 * (nrows / 16) / 8) + (k ^^^ 7) := by omega
        rw [h3]
      · rw [if_neg h16c]
        by_cases hYc : Y < 16 * (ncols / 16)
        · have hfr8 : ∀ d, d < 8 → Y * (nrows / 8) + 16 * (nrows / 16) / 8 ≠
              (16 * (ncols / 16) + d) * (nrows / 8) + 16 * (nrows / 16) / 8 := by
            intro d hd
            exact addr_ne2 Y (16 * (ncols / 16) + d) _ _ (nrows / 8)
              (Or.inl (by omega)) hrrlt hrrlt
          rw [BMT_rem8_frame inp nrows ncols _ hfr8,
            BMT_rem16_lookup inp nrows ncols h8c Y hYc hrrlt]
          apply mkByte_congr
          intro k hk
          have h3 : 16 * (nrows / 16) + (k ^^^ 7) =
              8 * (16 * (nrows / 16) / 8) + (k ^^^ 7) := by omega
          rw [h3]
        · rw [BMT_rem8_lookup inp nrows ncols (by omega) Y (by omega) hY hrrlt]
          apply mkByte_congr
          intro k hk
          have h3 : 16 * (nrows / 16) + (k ^^^ 7) =
              8 * (16 * (nrows / 16) / 8) + (k ^^^ 7) := by omega
          rw [h3]

theorem empBMT_main_lookup (inp : Nat → Nat) (nrows ncols : Nat) (h8c : ncols % 8 = 0)
    (Y Xb : Nat) (hY : Y < ncols) (hXb : Xb < 2 * (nrows / 16))
    (hnrb : 2 * (nrows / 16) ≤ nrows / 8) (o : Nat → Nat) :
    applyW o ((List.range (nrows / 16)).flatMap (fun a =>
      (List.range (ncols / 8)).flatMap (fun c =>
        empEmitTile16 8 (empLoadTile16 inp (ncols / 8) (16 * a) (8 * c)) (nrows / 8)
          (16 * a) (8 * c)))) (Y * (nrows / 8) + Xb) =
    mkByte (fun k =>
      (inp ((8 * Xb + k) * (ncols / 8) + Y / 8)).testBit (Y % 8)) := by
  set nrb := nrows / 8 with hnrbdef
  set ncb := ncols / 8 with hncbdef
  have hXbnrb : Xb < nrb := by omega
  apply applyW_range_flatMap (nrows / 16) (Xb / 2) _ _ _ _ (by omega)
  · intro o2
    apply applyW_range_flatMap (ncols / 8) (Y / 8) _ _ _ _ (by omega)
    · intro o3
      have hq : Y * nrb + Xb =
          (8 * (Y / 8) + Y % 8) * nrb + 16 * (Xb / 2) / 8 + Xb % 2 := by
        have h1 : 8 * (Y / 8) + Y % 8 = Y := by omega
        rw [h1]
        omega
      rw [hq, empEmitTile16_lookup 8 (by omega) _ nrb (16 * (Xb / 2)) (8 * (Y / 8))
        (Y % 8) (Xb % 2) (by omega) (by omega) (by omega) o3]
      rw [empTile16_value inp ncb (16 * (Xb / 2)) (8 * (Y / 8)) (Y % 8) (Xb % 2)
        (by omega) (by omega)]
      apply mkByte_congr
      intro k hk
      have h2 : 16 * (Xb / 2) + 8 * (Xb % 2) + k = 8 * Xb + k := by omega
      have h3 : 8 * (Y / 8) / 8 = Y / 8 := by omega
      rw [h2, h3]
    · intro c hc hcne w hw
      obtain ⟨i, e, hi, he, haddr⟩ := empEmitTile16_mem 8 _ nrb (16 * (Xb / 2)) (8 * c) w hw
      rw [haddr]
      have hD : 8 * c + i ≠ Y := by omega
      have hr0 : 16 * (Xb / 2) / 8 + e < nrb := by omega
      have := addr_ne2 (8 * c + i) Y (16 * (Xb / 2) / 8 + e) Xb nrb (Or.inl hD) hr0 hXbnrb
      omega
  · intro a ha hane w hw
    rw [List.mem_flatMap] at hw
    obtain ⟨c, hc, hwc⟩ := hw
    have hclt : c < ncb := List.mem_range.mp hc
    obtain ⟨i, e, hi, he, haddr⟩ := empEmitTile16_mem 8 _ nrb (16 * a) (8 * c) w hwc
    rw [haddr]
    have hr0 : 16 * a / 8 + e < nrb := by omega
    have hrne : 16 * a / 8 + e ≠ Xb := by omega
    have := addr_ne2 (8 * c + i) Y (16 * a / 8 + e) Xb nrb (Or.inr hrne) hr0 hXbnrb
    omega

theorem empBMT_main_frame (inp : Nat → Nat) (nrows ncols : Nat)
    (q : Nat) (hq : ∀ D r, r < nrows / 8 → r < 2 * (nrows / 16) → q ≠ D * (nrows / 8) + r)
    (o : Nat → Nat) :
    applyW o ((List.range (nrows / 16)).flatMap (fun a =>
      (List.range (ncols / 8)).flatMap (fun c =>
        empEmitTile16 8 (empLoadTile16 inp (ncols / 8) (16 * a) (8 * c)) (nrows / 8)
          (16 * a) (8 * c)))) q = o q := by
  apply applyW_range_flatMap_frame
  intro a ha w hw
  rw [List.mem_flatMap] at hw
  obtain ⟨c, hc, hwc⟩ := hw
  obtain ⟨i, e, hi, he, haddr⟩ := empEmitTile16_mem 8 _ _ (16 * a) (8 * c) w hwc
  rw [haddr]
  have := hq (8 * c + i) (16 * a / 8 + e) (by omega) (by omega)
  omega

theorem empBMT_rem16_lookup (inp : Nat → Nat) (nrows ncols : Nat) (h8c : ncols % 8 = 0)
    (Y : Nat) (hY : Y < 16 * (ncols / 16)) (hr : 16 * (nrows / 16) / 8 < nrows / 8)
    (o : Nat → Nat) :
    applyW o ((List.range (ncols / 16)).flatMap (fun c =>
      empEmitTile8x16 8 (empLoadTile8x16 inp (ncols / 8) (16 * (nrows / 16)) (16 * c))
        (nrows / 8) (16 * (nrows / 16)) (16 * c)))
      (Y * (nrows / 8) + 16 * (nrows / 16) / 8) =
    mkByte (fun k =>
      (inp ((16 * (nrows / 16) + k) * (ncols / 8) + Y / 8)).testBit (Y % 8)) := by
  set nrb := nrows / 8 with hnrbdef
  set ncb := ncols / 8 with hncbdef
  set rr := 16 * (nrows / 16) with hrrdef
  apply applyW_range_flatMap (ncols / 16) (Y / 16) _ _ _ _ (by omega)
  · intro o2
    have hq : Y * nrb + rr / 8 =
        (16 * (Y / 16) + Y % 8 + 8 * (Y % 16 / 8)) * nrb + rr / 8 := by
      have h1 : 16 * (Y / 16) + Y % 8 + 8 * (Y % 16 / 8) = Y := by omega
      rw [h1]
    rw [hq, empEmitTile8x16_lookup 8 (by omega) _ nrb rr (16 * (Y / 16)) (Y % 8)
      (Y % 16 / 8) (by omega) (by omega) hr o2]
    rw [empTile8x16_value inp ncb rr (16 * (Y / 16)) (Y % 8) (Y % 16 / 8)
      (by omega) (by omega)]
    apply mkByte_congr
    intro k hk
    have h2 : 16 * (Y / 16) / 8 + Y % 16 / 8 = Y / 8 := by omega
    rw [Nat.add_assoc, h2]
  · intro c hc hcne w hw
    obtain ⟨i, e, hi, he, haddr⟩ := empEmitTile8x16_mem 8 _ nrb rr (16 * c) w hw
    rw [haddr]
    have hD : 16 * c + i + 8 * e ≠ Y := by omega
    have := addr_ne2 (16 * c + i + 8 * e) Y (rr / 8) (rr / 8) nrb (Or.inl hD) hr hr
    omega

theorem empBMT_rem16_frame (inp : Nat → Nat) (nrows ncols : Nat) (q : Nat)
    (hq : ∀ D, q ≠ D * (nrows / 8) + 16 * (nrows / 16) / 8) (o : Nat → Nat) :
    applyW o ((List.range (ncols / 16)).flatMap (fun c =>
      empEmitTile8x16 8 (empLoadTile8x16 inp (ncols / 8) (16 * (nrows / 16)) (16 * c))
        (nrows / 8) (16 * (nrows / 16)) (16 * c))) q = o q := by
  apply applyW_range_flatMap_frame
  intro c hc w hw
  obtain ⟨i, e, hi, he, haddr⟩ := empEmitTile8x16_mem 8 _ _ (16 * (nrows / 16)) (16 * c) w hw
  rw [haddr]
  have := hq (16 * c + i + 8 * e)
  omega

theorem empBMT_rem8_lookup (inp : Nat → Nat) (nrows ncols : Nat) (h16c : ncols % 16 = 8)
    (Y : Nat) (hYlo : 16 * (ncols / 16) ≤ Y) (hYhi : Y < ncols)
    (hr : 16 * (nrows / 16) / 8 < nrows / 8) (o : Nat → Nat) :
    applyW o (empEmitTile8 8
      (empLoadTile8 inp (ncols / 8) (16 * (nrows / 16)) (16 * (ncols / 16)))
      (nrows / 8) (16 * (nrows / 16)) (16 * (ncols / 16)))
      (Y * (nrows / 8) + 16 * (nrows / 16) / 8) =
    mkByte (fun k =>
      (inp ((16 * (nrows / 16) + k) * (ncols / 8) + Y / 8)).testBit (Y % 8)) := by
  set nrb := nrows / 8 with hnrbdef
  set ncb := ncols / 8 with hncbdef
  set rr := 16 * (nrows / 16) with hrrdef
  set cc := 16 * (ncols / 16) with hccdef
  have hq : Y * nrb + rr / 8 = (cc + Y % 8) * nrb + rr / 8 := by
    have h1 : cc + Y % 8 = Y := by omega
    rw [h1]
  rw [hq, empEmitTile8_lookup 8 (by omega) _ nrb rr cc (Y % 8) (by omega) hr o]
  rw [empTile8_value inp ncb rr cc (Y % 8) (by omega)]
  apply mkByte_congr
  intro k hk
  have h2 : cc / 8 = Y / 8 := by omega
  rw [h2]

theorem empBMT_rem8_frame (inp : Nat → Nat) (nrows ncols : Nat) (q : Nat)
    (hq : ∀ d, d < 8 → q ≠ (16 * (ncols / 16) + d) * (nrows / 8) + 16 * (nrows / 16) / 8)
    (o : Nat → Nat) :
    applyW o (empEmitTile8 8
      (empLoadTile8 inp (ncols / 8) (16 * (nrows / 16)) (16 * (ncols / 16)))
      (nrows / 8) (16 * (nrows / 16)) (16 * (ncols / 16))) q = o q := by
  apply applyW_notin
  intro w hw
  obtain ⟨i, hi, haddr⟩ := empEmitTile8_mem 8 _ _ (16 * (nrows / 16)) (16 * (ncols / 16)) w hw
  rw [haddr]
  have := hq i (by omega)
  omega

/-- Byte-level characterisation of `empBitMatrixTranspose`: output byte
`(Y, Xb)` collects, for each bit `k`, the input bit at row `8 Xb + k` and
column `Y` (a plain transpose under the least-significant-bit-first
convention). -/
theorem empBitMatrixTranspose_byte (inp out : Nat → Nat) (nrows ncols : Nat)
    (h8r : nrows % 8 = 0) (h8c : ncols % 8 = 0) (Y Xb : Nat)
    (hY : Y < ncols) (hXb : Xb < nrows / 8) :
    empBitMatrixTransposeRun inp nrows ncols out (Y * (nrows / 8) + Xb) =
      mkByte (fun k =>
        (inp ((8 * Xb + k) * (ncols / 8) + Y / 8)).testBit (Y % 8)) := by
  simp only [empBitMatrixTransposeRun]
  by_cases h16 : 16 * (nrows / 16) = nrows
  · rw [if_pos h16]
    exact empBMT_main_lookup inp nrows ncols h8c Y Xb hY (by omega) (by omega) out
  · rw [if_neg h16]
    have h16r : nrows % 16 = 8 := by omega
    have hbranch : (ncols % 8 = 0 ∧ ncols % 16 ≠ 0) ∨ (nrows % 8 = 0 ∧ nrows % 16 ≠ 0) :=
      Or.inr ⟨h8r, by omega⟩
    rw [if_pos hbranch]
    have hrrlt : 16 * (nrows / 16) / 8 < nrows / 8 := by omega
    by_cases hXbm : Xb < 2 * (nrows / 16)
    · have hq2 : ∀ D, Y * (nrows / 8) + Xb ≠ D * (nrows / 8) + 16 * (nrows / 16) / 8 := by
        intro D
        exact addr_ne2 Y D Xb (16 * (nrows / 16) / 8) (nrows / 8)
          (Or.inr (by omega)) hXb hrrlt
      by_cases h16c : 16 * (ncols / 16) = ncols
      · rw [if_pos h16c, empBMT_rem16_frame inp nrows ncols _ hq2,
          empBMT_main_lookup inp nrows ncols h8c Y Xb hY hXbm (by omega)]
      · rw [if_neg h16c, empBMT_rem8_frame inp nrows ncols _ (fun d hd => hq2 _),
          empBMT_rem16_frame inp nrows ncols _ hq2,
          empBMT_main_lookup inp nrows ncols h8c Y Xb hY hXbm (by omega)]
    · have hXbeq : Xb = 16 * (nrows / 16) / 8 := by omega
      rw [hXbeq]
      by_cases h16c : 16 * (ncols / 16) = ncols
      · rw [if_pos h16c, empBMT_rem16_lookup inp nrows ncols h8c Y (by omega) hrrlt]
        apply mkByte_congr
        intro k hk
        have h3 : 16 * (nrows / 16) + k = 8 * (16 * (nrows / 16) / 8) + k := by omega
        rw [h3]
      · rw [if_neg h16c]
        by_cases hYc : Y < 16 * (ncols / 16)
        · have hfr8 : ∀ d, d < 8 → Y * (nrows / 8) + 16 * (nrows / 16) / 8 ≠
              (16 * (ncols / 16) + d) * (nrows / 8) + 16 * (nrows / 16) / 8 := by
            intro d hd
            exact addr_ne2 Y (16 * (ncols / 16) + d) _ _ (nrows / 8)
              (Or.inl (by omega)) hrrlt hrrlt
          rw [empBMT_rem8_frame inp nrows ncols _ hfr8,
            empBMT_rem16_lookup inp nrows ncols h8c Y hYc hrrlt]
          apply mkByte_congr
          intro k hk
          have h3 : 16 * (nrows / 16) + k = 8 * (16 * (nrows / 16) / 8) + k := by omega
          rw [h3]
        · rw [empBMT_rem8_lookup inp nrows ncols (by omega) Y (by omega) hY hrrlt]
          apply mkByte_congr
          intro k hk
          have h3 : 16 * (nrows / 16) + k = 8 * (16 * (nrows / 16) / 8) + k := by omega
          rw [h3]

theorem mkByte_testBit_self (v : Nat) (hv : v < 256) :
    mkByte (fun k => v.testBit k) = v := by
  apply Nat.eq_of_testBit_eq
  intro j
  rcases Nat.lt_or_ge j 8 with hj | hj
  · rw [testBit_mkByte _ _ hj]
  · have h1 : (mkByte (fun k => v.testBit k)).testBit j = false := by
      apply Nat.testBit_lt_two_pow
      calc mkByte (fun k => v.testBit k) < 256 := mkByte_lt _
        _ = 2 ^ 8 := by norm_num
        _ ≤ 2 ^ j := Nat.pow_le_pow_right (by norm_num) hj
    have h2 : v.testBit j = false := by
      apply Nat.testBit_lt_two_pow
      calc v < 256 := hv
        _ = 2 ^ 8 := by norm_num
        _ ≤ 2 ^ j := Nat.pow_le_pow_right (by norm_num) hj
    rw [h1, h2]

theorem BitMatrixTranspose_involution (inp out0 out1 : Nat → Nat) (R C : Nat)
    (h8r : R % 8 = 0) (h8c : C % 8 = 0) (hRpos : 0 < R) (hCpos : 0 < C)
    (hbytes : ∀ p, p < R * (C / 8) → inp p < 256) (q : Nat) (hq : q < R * (C / 8)) :
    BitMatrixTranspose (BitMatrixTranspose inp R C out0) C R out1 q = inp q := by
  have hC8 : 0 < C / 8 := by omega
  set x := q / (C / 8) with hxdef
  set yb := q % (C / 8) with hybdef
  have hxR : x < R := by
    rw [hxdef]
    exact Nat.div_lt_of_lt_mul (by rw [Nat.mul_comm] at hq; omega)
  have hyb : yb < C / 8 := Nat.mod_lt _ hC8
  have hqeq : q = x * (C / 8) + yb := by
    rw [hxdef, hybdef, Nat.mul_comm]
    exact (Nat.div_add_mod q (C / 8)).symm
  rw [hqeq]
  rw [BitMatrixTranspose_byte _ out1 C R h8c h8r x yb hxR (by omega)]
  have hinner : ∀ k, k < 8 →
      ((BitMatrixTranspose inp R C out0) ((8 * yb + (k ^^^ 7)) * (R / 8) + x / 8)).testBit
        ((x % 8) ^^^ 7) = (inp (x * (C / 8) + yb)).testBit k := by
    intro k hk
    have hx7 := xor7_lt (show k < 8 from hk)
    have hY : 8 * yb + (k ^^^ 7) < C := by omega
    rw [BitMatrixTranspose_byte inp out0 R C h8r h8c (8 * yb + (k ^^^ 7)) (x / 8) hY
      (by omega)]
    have hx8 := xor7_lt (show x % 8 < 8 by omega)
    rw [testBit_mkByte _ _ hx8, Nat.xor_cancel_right]
    have h1 : 8 * (x / 8) + x % 8 = x := by omega
    have h2 : (8 * yb + (k ^^^ 7)) / 8 = yb := by omega
    have h3 : (8 * yb + (k ^^^ 7)) % 8 = k ^^^ 7 := by omega
    rw [h1, h2, h3, Nat.xor_cancel_right]
  rw [mkByte_congr (fun k hk => hinner k hk)]
  exact mkByte_testBit_self _ (hbytes _ (by
    have : x * (C / 8) + yb < R * (C / 8) := by
      have h1 : (x + 1) * (C / 8) ≤ R * (C / 8) := Nat.mul_le_mul_right _ (by omega)
      have h2 : (x + 1) * (C / 8) = x * (C / 8) + C / 8 := by ring
      omega
    exact this))

theorem empBitMatrixTransposeRun_involution (inp out0 out1 : Nat → Nat) (R C : Nat)
    (h8r : R % 8 = 0) (h8c : C % 8 = 0) (hRpos : 0 < R) (hCpos : 0 < C)
    (hbytes : ∀ p, p < R * (C / 8) → inp p < 256) (q : Nat) (hq : q < R * (C / 8)) :
    empBitMatrixTransposeRun (empBitMatrixTransposeRun inp R C out0) C R out1 q = inp q := by
  have hC8 : 0 < C / 8 := by omega
  set x := q / (C / 8) with hxdef
  set yb := q % (C / 8) with hybdef
  have hxR : x < R := by
    rw [hxdef]
    exact Nat.div_lt_of_lt_mul (by rw [Nat.mul_comm] at hq; omega)
  have hyb : yb < C / 8 := Nat.mod_lt _ hC8
  have hqeq : q = x * (C / 8) + yb := by
    rw [hxdef, hybdef, Nat.mul_comm]
    exact (Nat.div_add_mod q (C / 8)).symm
  rw [hqeq]
  rw [empBitMatrixTranspose_byte _ out1 C R h8c h8r x yb hxR (by omega)]
  have hinner : ∀ k, k < 8 →
      ((empBitMatrixTransposeRun inp R C out0) ((8 * yb + k) * (R / 8) + x / 8)).testBit
        (x % 8) = (inp (x * (C / 8) + yb)).testBit k := by
    intro k hk
    have hY : 8 * yb + k < C := by omega
    rw [empBitMatrixTranspose_byte inp out0 R C h8r h8c (8 * yb + k) (x / 8) hY (by omega)]
    rw [testBit_mkByte _ _ (by omega)]
    have h1 : 8 * (x / 8) + x % 8 = x := by omega
    have h2 : (8 * yb + k) / 8 = yb := by omega
    have h3 : (8 * yb + k) % 8 = k := by omega
    rw [h1, h2, h3]
  rw [mkByte_congr (fun k hk => hinner k hk)]
  exact mkByte_testBit_self _ (hbytes _ (by
    have h1 : (x + 1) * (C / 8) ≤ R * (C / 8) := Nat.mul_le_mul_right _ (by omega)
    have h2 : (x + 1) * (C / 8) = x * (C / 8) + C / 8 := by ring
    omega))

/-- On inputs whose loop bounds do not wrap, `empBitMatrixTranspose`
succeeds and performs exactly the stores of `empBitMatrixTransposeRun`. -/
theorem empBitMatrixTranspose_eq_run (inp out : Nat → Nat) (nrows ncols : Nat)
    (h16r : 16 ≤ nrows) (h : 16 * (nrows / 16) = nrows ∨ 16 ≤ ncols) :
    empBitMatrixTranspose inp nrows ncols out =
      some (empBitMatrixTransposeRun inp nrows ncols out) := by
  have hcond : ¬(16 * (nrows / 16) ≠ nrows ∧ ncols < 16) := by
    rcases h with h | h
    · exact fun hc => hc.1 h
    · omega
  unfold empBitMatrixTranspose
  rw [if_neg (by omega : ¬ nrows < 16), if_neg hcond]

/-- C6 (corrected): for every bit matrix of `R` rows and `C` columns with
`R` and `C` positive multiples of 8 stored in row-major dense form,
transposing with `BitMatrixTranspose` into a `C x R` matrix and transposing
again returns the matrix byte for byte; for `empBitMatrixTranspose` the
same holds whenever both dimensions are at least 16, so that no `uint64_t`
loop bound wraps in either direction of the round trip. -/
theorem C6_transpose_involution (M out0 out1 out2 out3 : Nat → Nat) (R C : Nat)
    (h8r : R % 8 = 0) (h8c : C % 8 = 0) (hR : 0 < R) (hC : 0 < C)
    (hbytes : ∀ p, p < R * (C / 8) → M p < 256) :
    ∀ q, q < R * (C / 8) →
      BitMatrixTranspose (BitMatrixTranspose M R C out0) C R out1 q = M q ∧
      (16 ≤ R → 16 ≤ C →
        ((empBitMatrixTranspose M R C out2).bind
            (fun T => empBitMatrixTranspose T C R out3)).map (fun g => g q) =
          some (M q)) := by
  intro q hq
  refine ⟨BitMatrixTranspose_involution M out0 out1 R C h8r h8c hR hC hbytes q hq, ?_⟩
  intro hR16 hC16
  rw [empBitMatrixTranspose_eq_run M out2 R C hR16 (Or.inr hC16)]
  show Option.map (fun g => g q)
      (empBitMatrixTranspose (empBitMatrixTransposeRun M R C out2) C R out3) =
    some (M q)
  rw [empBitMatrixTranspose_eq_run _ out3 C R hC16 (Or.inr hR16)]
  show some (empBitMatrixTransposeRun (empBitMatrixTransposeRun M R C out2) C R out3 q) =
    some (M q)
  exact congrArg some
    (empBitMatrixTransposeRun_involution M out2 out3 R C h8r h8c hR hC hbytes q hq)

/-- C6 counterexample to the emp half of the original claim: at an 8 x 8
matrix (8 is a positive multiple of 8, so the claim covers it), the
`uint64_t` bound `ROW_NUM - 16` of `empBitMatrixTranspose` wraps; the main
loop condition never fails and the body reads out of bounds, so the run is
modelled `none` and the double transpose produces no byte at all — in
particular not the matrix's byte `7`. -/
theorem C6_emp_involution_counterexample :
    ((8 : Nat) % 8 = 0 ∧ (0 : Nat) < 8) ∧
    ((empBitMatrixTranspose (fun _ => 7) 8 8 (fun _ => 0)).bind
        (fun T => empBitMatrixTranspose T 8 8 (fun _ => 0))).map
      (fun g => g 0) = none ∧
    (fun _ : Nat => (7 : Nat)) 0 = 7 :=
  ⟨⟨rfl, by norm_num⟩, rfl, rfl⟩

theorem C6_transpose_involution_witness :
    (∀ p, p < 16 * (16 / 8) → (fun _ : Nat => 7) p < 256) ∧
    (∀ q, q < 16 * (16 / 8) →
      BitMatrixTranspose (BitMatrixTranspose (fun _ => 7) 16 16 (fun _ => 0)) 16 16
        (fun _ => 0) q = 7 ∧
      (16 ≤ 16 → 16 ≤ 16 →
        ((empBitMatrixTranspose (fun _ => 7) 16 16 (fun _ => 0)).bind
            (fun T => empBitMatrixTranspose T 16 16 (fun _ => 0))).map
          (fun g => g q) = some 7)) :=
  ⟨fun _ _ => by norm_num,
   C6_transpose_involution (fun _ => 7) (fun _ => 0) (fun _ => 0) (fun _ => 0) (fun _ => 0)
     16 16 (by norm_num) (by norm_num) (by norm_num) (by norm_num)
     (fun _ _ => by norm_num)⟩

/-! ### Bloom filter (src/filter/bloom_filter.hpp)

The keyed hash `FastKeyedHash` (`LiteMurmurHash`, from a utility header that
is not among the source files) is an abstract parameter `H : salt -> input
bytes -> Nat`.  The bit table is a byte buffer `Nat → Nat`. -/

/-- The `bit_mask` table from the source. -/
def bit_mask : List Nat := [0x01, 0x02, 0x04, 0x08, 0x10, 0x20, 0x40, 0x80]

/-- The 128 predefined salts from `GenUniqueSaltVector`. -/
def predefined_salt : List Nat :=
  [0xAAAAAAAA, 0x55555555, 0x33333333, 0xCCCCCCCC, 0x66666666, 0x99999999, 0xB5B5B5B5,
   0x4B4B4B4B, 0xAA55AA55, 0x55335533, 0x33CC33CC, 0xCC66CC66, 0x66996699, 0x99B599B5,
   0xB54BB54B, 0x4BAA4BAA, 0xAA33AA33, 0x55CC55CC, 0x33663366, 0xCC99CC99, 0x66B566B5,
   0x994B994B, 0xB5AAB5AA, 0xAAAAAA33, 0x555555CC, 0x33333366, 0xCCCCCC99, 0x666666B5,
   0x9999994B, 0xB5B5B5AA, 0xFFFFFFFF, 0xFFFF0000, 0xB823D5EB, 0xC1191CDF, 0xF623AEB3,
   0xDB58499F, 0xC8D42E70, 0xB173F616, 0xA91A5967, 0xDA427D63, 0xB1E8A2EA, 0xF6C0D155,
   0x4909FEA3, 0xA68CC6A7, 0xC395E782, 0xA26057EB, 0x0CD5DA28, 0x467C5492, 0xF15E6982,
   0x61C6FAD3, 0x9615E352, 0x6E9E355A, 0x689B563E, 0x0C9831A8, 0x6753C18B, 0xA622689B,
   0x8CA63C47, 0x42CC2884, 0x8E89919B, 0x6EDBD7D3, 0x15B6796C, 0x1D6FDFE4, 0x63FF9092,
   0xE7401432, 0xEFFE9412, 0xAEAEDF79, 0x9F245A31, 0x83C136FC, 0xC3DA4A8C, 0xA5112C8C,
   0x5271F491, 0x9A948DAB, 0xCEE59A8D, 0xB5F525AB, 0x59D13217, 0x24E7C331, 0x697C2103,
   0x84B0A460, 0x86156DA9, 0xAEF2AC68, 0x23243DA5, 0x3F649643, 0x5FA495A8, 0x67710DF8,
   0x9A6C499E, 0xDCFB0227, 0x46A43433, 0x1832B07A, 0xC46AFF3C, 0xB9C8FFF0, 0xC9500467,
   0x34431BDF, 0xB652432B, 0xE367F12B, 0x427F4C1B, 0x224C006E, 0x2E7E5A89, 0x96F99AA5,
   0x0BEB452A, 0x2FD87C39, 0x74B2E1FB, 0x222EFD24, 0xF357F60C, 0x440FCB1E, 0x8BBE030F,
   0x6704DC29, 0x1144D12F, 0x948B1355, 0x6D8FD7E9, 0x1C11A014, 0xADD1592F, 0xFB3C712E,
   0xFC77642F, 0xF9C4CE8C, 0x31312FB9, 0x08B0DD79, 0x318FA6E7, 0xC040D23D, 0xC0589AA7,
   0x0CA5C075, 0xF874B172, 0x0CF914D5, 0x784D3280, 0x4E8CFEBC, 0xC569F575, 0xCDB2A091,
   0x2CC016B4, 0x5C5F4421]

/-- `GenUniqueSaltVector` for `hash_num ≤ 128`: copy the first `hash_num`
predefined salts, then mix each entry in place with
`vec_salt[i] = vec_salt[i] * vec_salt[(i+3) % size] + random_seed`
(32-bit arithmetic; the loop reads already-mixed entries when `i + 3`
wraps around).  The `hash_num > 128` branch of the source extends the
vector with libc `rand()` values; that branch is outside the sources and
is not modelled (all uses here have `hash_num ≤ 128`). -/
def GenUniqueSaltVector (hash_num random_seed : Nat) : List Nat :=
  let vec0 := predefined_salt.take (min hash_num 128)
  (List.range vec0.length).foldl
    (fun v i => v.set i ((v.getD i 0 * v.getD ((i + 3) % v.length) 0 + random_seed) % 2 ^ 32))
    vec0

/-- State of a `BloomFilter` object (the fields the claims are about). -/
structure BloomFilter where
  hash_num : Nat
  vec_salt : List Nat
  table_size : Nat
  bit_table : Nat → Nat
  random_seed : Nat
  inserted_element_num : Nat

/-- `BloomFilter::PlainInsert`: for each `i < hash_num`, set bit
`H(salt[i], input) % table_size` of the bit table
(`bit_table[idx >> 3] |= bit_mask[idx & 7]`), then bump the counter. -/
def PlainInsert (H : Nat → List Nat → Nat) (f : BloomFilter) (input : List Nat) :
    BloomFilter :=
  { f with
    bit_table := (List.range f.hash_num).foldl
      (fun tbl i =>
        let bit_index := H (f.vec_salt.getD i 0) input % f.table_size
        bufWrite tbl (bit_index >>> 3)
          (tbl (bit_index >>> 3) ||| bit_mask.getD (bit_index &&& 0x07) 0))
      f.bit_table
    inserted_element_num := f.inserted_element_num + 1 }

/-- `BloomFilter::PlainContain`: true iff for every `i < vec_salt.size()`,
bit `H(salt[i], input) % table_size` of the bit table is set
(`(bit_table[idx >> 3] & bit_mask[idx & 7]) == bit_mask[idx & 7]`). -/
def PlainContain (H : Nat → List Nat → Nat) (f : BloomFilter) (input : List Nat) : Bool :=
  (List.range f.vec_salt.length).all
    (fun i =>
      let bit_index := H (f.vec_salt.getD i 0) input % f.table_size
      let local_bit_index := bit_index &&& 0x07
      (f.bit_table (bit_index >>> 3) &&& bit_mask.getD local_bit_index 0) ==
        bit_mask.getD local_bit_index 0)

/-- Pointwise bit inclusion between bit tables. -/
def tblLe (t1 t2 : Nat → Nat) : Prop :=
  ∀ p j, (t1 p).testBit j = true → (t2 p).testBit j = true

theorem tblLe_trans {t1 t2 t3 : Nat → Nat} (h1 : tblLe t1 t2) (h2 : tblLe t2 t3) :
    tblLe t1 t3 := fun p j h => h2 p j (h1 p j h)

theorem bit_mask_getD (m : Nat) (hm : m < 8) : bit_mask.getD m 0 = 2 ^ m := by
  interval_cases m <;> rfl

/-- One masking store only adds bits. -/
theorem maskStore_tblLe (t : Nat → Nat) (p v : Nat) :
    tblLe t (bufWrite t p (t p ||| v)) := by
  intro p' j h
  unfold bufWrite
  split
  · next heq =>
    subst heq
    rw [Nat.testBit_lor, h, Bool.true_or]
  · exact h

theorem insertFold_tblLe (step : Nat → Nat) (mask : Nat → Nat) :
    ∀ (L : List Nat) (t : Nat → Nat),
      tblLe t (L.foldl (fun tbl i => bufWrite tbl (step i) (tbl (step i) ||| mask i)) t) := by
  intro L
  induction L with
  | nil => intro t p j h; exact h
  | cons a L ih =>
    intro t
    rw [List.foldl_cons]
    exact tblLe_trans (maskStore_tblLe t (step a) (mask a)) (ih _)

theorem insertFold_sets (idx : Nat → Nat) :
    ∀ (n : Nat) (t : Nat → Nat) (i : Nat), i < n →
      (((List.range n).foldl
          (fun tbl i => bufWrite tbl (idx i >>> 3)
            (tbl (idx i >>> 3) ||| bit_mask.getD (idx i &&& 0x07) 0)) t)
        (idx i >>> 3)).testBit (idx i &&& 0x07) = true := by
  intro n
  induction n with
  | zero => intro t i hi; omega
  | succ n ih =>
    intro t i hi
    rw [List.range_succ, List.foldl_append, List.foldl_cons, List.foldl_nil]
    rcases Nat.lt_or_ge i n with hlt | hge
    · exact maskStore_tblLe _ _ _ _ _ (ih t i hlt)
    · have hin : i = n := by omega
      subst hin
      rw [bufWrite_same, Nat.testBit_lor]
      have h7 : idx i &&& 0x07 ≤ 7 := Nat.and_le_right
      rw [bit_mask_getD _ (by omega), Nat.testBit_two_pow_self, Bool.or_true]

theorem PlainInsert_hash_num (H : Nat → List Nat → Nat) (f : BloomFilter) (x : List Nat) :
    (PlainInsert H f x).hash_num = f.hash_num := rfl

theorem PlainInsert_vec_salt (H : Nat → List Nat → Nat) (f : BloomFilter) (x : List Nat) :
    (PlainInsert H f x).vec_salt = f.vec_salt := rfl

theorem PlainInsert_table_size (H : Nat → List Nat → Nat) (f : BloomFilter) (x : List Nat) :
    (PlainInsert H f x).table_size = f.table_size := rfl

theorem PlainInsert_tblLe (H : Nat → List Nat → Nat) (f : BloomFilter) (x : List Nat) :
    tblLe f.bit_table (PlainInsert H f x).bit_table :=
  insertFold_tblLe _ _ (List.range f.hash_num) f.bit_table

theorem PlainInsert_sets (H : Nat → List Nat → Nat) (f : BloomFilter) (x : List Nat)
    (i : Nat) (hi : i < f.hash_num) :
    (((PlainInsert H f x).bit_table) ((H (f.vec_salt.getD i 0) x % f.table_size) >>> 3)).testBit
      ((H (f.vec_salt.getD i 0) x % f.table_size) &&& 0x07) = true := by
  simp only [PlainInsert]
  exact insertFold_sets (fun i => H (f.vec_salt.getD i 0) x % f.table_size) f.hash_num
    f.bit_table i hi

theorem foldl_PlainInsert_hash_num (H : Nat → List Nat → Nat) (elems : List (List Nat)) :
    ∀ f : BloomFilter, (elems.foldl (PlainInsert H) f).hash_num = f.hash_num := by
  induction elems with
  | nil => intro f; rfl
  | cons e elems ih => intro f; rw [List.foldl_cons, ih]; rfl

theorem foldl_PlainInsert_vec_salt (H : Nat → List Nat → Nat) (elems : List (List Nat)) :
    ∀ f : BloomFilter, (elems.foldl (PlainInsert H) f).vec_salt = f.vec_salt := by
  induction elems with
  | nil => intro f; rfl
  | cons e elems ih => intro f; rw [List.foldl_cons, ih]; rfl

theorem foldl_PlainInsert_table_size (H : Nat → List Nat → Nat) (elems : List (List Nat)) :
    ∀ f : BloomFilter, (elems.foldl (PlainInsert H) f).table_size = f.table_size := by
  induction elems with
  | nil => intro f; rfl
  | cons e elems ih => intro f; rw [List.foldl_cons, ih]; rfl

theorem foldl_PlainInsert_tblLe (H : Nat → List Nat → Nat) (elems : List (List Nat)) :
    ∀ f : BloomFilter, tblLe f.bit_table ((elems.foldl (PlainInsert H) f).bit_table) := by
  induction elems with
  | nil => intro f p j h; exact h
  | cons e elems ih =>
    intro f
    rw [List.foldl_cons]
    exact tblLe_trans (PlainInsert_tblLe H f e) (ih _)

theorem PlainContain_of_bits (H : Nat → List Nat → Nat) (f : BloomFilter) (x : List Nat)
    (hlen : f.vec_salt.length = f.hash_num)
    (hbits : ∀ i, i < f.hash_num →
      ((f.bit_table) ((H (f.vec_salt.getD i 0) x % f.table_size) >>> 3)).testBit
        ((H (f.vec_salt.getD i 0) x % f.table_size) &&& 0x07) = true) :
    PlainContain H f x = true := by
  unfold PlainContain
  rw [List.all_eq_true]
  intro i hi
  have hilt : i < f.hash_num := by rw [← hlen]; exact List.mem_range.mp hi
  have h7 : (H (f.vec_salt.getD i 0) x % f.table_size) &&& 0x07 ≤ 7 := Nat.and_le_right
  show ((f.bit_table ((H (f.vec_salt.getD i 0) x % f.table_size) >>> 3) &&&
      bit_mask.getD ((H (f.vec_salt.getD i 0) x % f.table_size) &&& 0x07) 0) ==
      bit_mask.getD ((H (f.vec_salt.getD i 0) x % f.table_size) &&& 0x07) 0) = true
  rw [bit_mask_getD _ (by omega)]
  rw [Nat.and_two_pow, hbits i hilt]
  simp

/-- C8: starting from any Bloom filter state with `table_size > 0` and
`vec_salt` of length `hash_num`, after any sequence of `PlainInsert`
operations, `PlainContain` returns true for every element of the sequence
(no false negatives), for any keyed hash `H`. -/
theorem C8_bloom_no_false_negatives (H : Nat → List Nat → Nat) (f0 : BloomFilter)
    (elems : List (List Nat)) (x : List Nat)
    (htab : 0 < f0.table_size) (hlen : f0.vec_salt.length = f0.hash_num)
    (hx : x ∈ elems) :
    PlainContain H (elems.foldl (PlainInsert H) f0) x = true := by
  induction elems generalizing f0 with
  | nil => simp at hx
  | cons e elems ih =>
    rw [List.foldl_cons]
    rcases List.mem_cons.mp hx with hxe | hxr
    · subst hxe
      apply PlainContain_of_bits
      · rw [foldl_PlainInsert_vec_salt, foldl_PlainInsert_hash_num]
        exact hlen
      · intro i hi
        rw [foldl_PlainInsert_hash_num, PlainInsert_hash_num] at hi
        rw [foldl_PlainInsert_vec_salt, foldl_PlainInsert_table_size,
          PlainInsert_vec_salt, PlainInsert_table_size]
        exact foldl_PlainInsert_tblLe H elems (PlainInsert H f0 x) _ _
          (PlainInsert_sets H f0 x i hi)
    · exact ih (PlainInsert H f0 e) htab hlen hxr

theorem C8_bloom_no_false_negatives_witness :
    (0 < (8 : Nat) ∧ [(5 : Nat)].length = 1 ∧ [(1 : Nat)] ∈ [[(1 : Nat)]]) ∧
    PlainContain (fun _ _ => 0)
      ([[(1 : Nat)]].foldl (PlainInsert (fun _ _ => 0))
        ⟨1, [5], 8, fun _ => 0, 0, 0⟩) [1] = true :=
  ⟨⟨by norm_num, by norm_num, by simp⟩,
   C8_bloom_no_false_negatives (fun _ _ => 0) ⟨1, [5], 8, fun _ => 0, 0, 0⟩ [[1]] [1]
     (by norm_num) (by norm_num) (by simp)⟩

/-- Little-endian bytes of a 4-byte `uint32_t` value. -/
def le4 (v : Nat) : List Nat := [byteOf v 0, byteOf v 1, byteOf v 2, byteOf v 3]

/-- Little-endian read of 4 bytes at `off` (a `fin.read(ptr, 4)`). -/
def rd4 (s : List Nat) (off : Nat) : Nat :=
  s.getD off 0 % 256 + 256 * (s.getD (off + 1) 0 % 256) +
    65536 * (s.getD (off + 2) 0 % 256) + 16777216 * (s.getD (off + 3) 0 % 256)

/-- The file-based `BloomFilter::WriteObject(std::string)`: each of the
three `uint32_t` header fields is written with `fout.write(ptr, 8)` - eight
bytes starting at the address of a four-byte field, so the four bytes of
the field (little-endian) are followed by four bytes of adjacent object
memory, modelled as the unspecified `junk` byte functions.  The
`table_size / 8` bytes of the bit table follow. -/
def WriteObjectFile (f : BloomFilter) (junk1 junk2 junk3 : Nat → Nat) : List Nat :=
  le4 f.hash_num ++ [junk1 0, junk1 1, junk1 2, junk1 3] ++
  le4 f.random_seed ++ [junk2 0, junk2 1, junk2 2, junk2 3] ++
  le4 f.table_size ++ [junk3 0, junk3 1, junk3 2, junk3 3] ++
  (List.range (f.table_size / 8)).map f.bit_table

/-- The file-based `BloomFilter::ReadObject(std::string)`: reads
`sizeof(uint32_t)` = 4 bytes per header field, in order `hash_num`,
`random_seed` (then reconstructs `vec_salt` from them), `table_size`, and
finally `table_size / 8` bytes of bit table.  `inserted_element_num` is not
part of the format. -/
def ReadObjectFile (s : List Nat) : BloomFilter :=
  let hash_num := rd4 s 0
  let random_seed := rd4 s 4
  let vec_salt := GenUniqueSaltVector hash_num random_seed
  let table_size := rd4 s 8
  let bit_table : Nat → Nat := fun p => if p < table_size / 8 then s.getD (12 + p) 0 else 0
  { hash_num := hash_num, vec_salt := vec_salt, table_size := table_size,
    bit_table := bit_table, random_seed := random_seed, inserted_element_num := 0 }

/-- C5 (refuted): the file-based persistence round trip is not the identity.
The writer emits an 8-byte record per `uint32_t` header field while the
reader consumes 4 bytes per field, so the reader's `table_size` is decoded
from the stored bytes of `random_seed`.  At the concrete filter below
(`hash_num = 1`, `random_seed = 7`, `table_size = 16`), whatever the four
adjacent-memory bytes after each field were, the read-back `table_size` is
7, not 16. -/
theorem C5_persistence_not_roundtrip :
    ∀ junk1 junk2 junk3 : Nat → Nat,
      (ReadObjectFile (WriteObjectFile
        ⟨1, [5], 16, fun _ => 0xAB, 7, 0⟩ junk1 junk2 junk3)).table_size = 7 ∧
      (BloomFilter.mk 1 [5] 16 (fun _ => 0xAB) 7 0).table_size = 16 := by
  intro junk1 junk2 junk3
  constructor
  · show rd4 (WriteObjectFile ⟨1, [5], 16, fun _ => 0xAB, 7, 0⟩ junk1 junk2 junk3) 8 = 7
    simp [WriteObjectFile, le4, byteOf, rd4]
  · rfl

/-! ### NIZK proof of discrete-log equality (src/unnamed/part_002)

Modelled from the spec: the prime-order group is a cyclic group of order
`q`, written additively as `ZMod q` (elliptic-curve points and `ECPoint`
operations are not among the source files); `g ^ x` becomes `x • g`.
`ToByteString` serialisation is an abstract `ser : ZMod q → List Nat` and
`Hash::StringToBigInt` an abstract `Hash : List Nat → Nat`; transcripts are
byte strings concatenated exactly as the source concatenates
`std::string`s. -/

namespace DLOGEquality

/-- Statement `(g1, h1, g2, h2)` of the dlog-equality relation. -/
structure Statement (q : Nat) where
  g1 : ZMod q
  h1 : ZMod q
  g2 : ZMod q
  h2 : ZMod q

/-- A proof `(A1, A2, z)`. -/
structure Proof (q : Nat) where
  A1 : ZMod q
  A2 : ZMod q
  z : Nat

/-- The Fiat-Shamir challenge: both `Prove` and `Verify` build the very
same transcript (the caller's `transcript_str`, the four instance points,
then the two commitments) and hash it with `Hash::StringToBigInt`. -/
def challenge (q : Nat) (ser : ZMod q → List Nat) (Hash : List Nat → Nat)
    (inst : Statement q) (transcript_str : List Nat) (A1 A2 : ZMod q) : Nat :=
  Hash (transcript_str ++ ser inst.g1 ++ ser inst.g2 ++ ser inst.h1 ++ ser inst.h2 ++
    ser A1 ++ ser A2)

/-- `DLOGEquality::Prove`: the caller-supplied randomness `a` mirrors
`GenRandomBigIntLessThan(order)`; `A1 = g1^a`, `A2 = g2^a`, the challenge
is the transcript hash, and `z = (a + e*w) mod q`. -/
def Prove (q : Nat) (ser : ZMod q → List Nat) (Hash : List Nat → Nat)
    (inst : Statement q) (w : Nat) (transcript_str : List Nat) (a : Nat) : Proof q :=
  let A1 := a • inst.g1
  let A2 := a • inst.g2
  let e := challenge q ser Hash inst transcript_str A1 A2
  { A1 := A1, A2 := A2, z := (a + e * w) % q }

/-- `DLOGEquality::Verify`: recompute the challenge from the same
transcript and accept iff `g1^z = A1 * h1^e` and `g2^z = A2 * h2^e`. -/
def Verify (q : Nat) (ser : ZMod q → List Nat) (Hash : List Nat → Nat)
    (inst : Statement q) (transcript_str : List Nat) (pi : Proof q) : Bool :=
  let e := challenge q ser Hash inst transcript_str pi.A1 pi.A2
  let V1 := decide (pi.z • inst.g1 = pi.A1 + e • inst.h1)
  let V2 := decide (pi.z • inst.g2 = pi.A2 + e • inst.h2)
  V1 && V2

end DLOGEquality

theorem dlogeq_key (q : Nat) (g : ZMod q) (a E w : Nat) :
    ((a + E * w) % q : Nat) • g = a • g + E • (w • g) := by
  rw [nsmul_eq_mul, nsmul_eq_mul, nsmul_eq_mul, nsmul_eq_mul, ZMod.natCast_mod]
  push_cast
  ring

/-- C7, amended: for a well-formed witness the verifier accepts the honest
proof; and when `h2` is replaced by `h2 * g2`, the verifier rejects the
honest proof provided `g1` and `g2` generate the group (are units of
`ZMod q`) and the recomputed challenge on the altered instance is not
divisible by the group order `q`.  (The divisibility proviso is forced:
a hash that returns a multiple of `q` on the altered transcript makes both
verification equations hold, see the counterexample.) -/
theorem C7_dlogeq_completeness_and_reject (q : Nat) (ser : ZMod q → List Nat)
    (Hash : List Nat → Nat) (inst : DLOGEquality.Statement q) (w a : Nat)
    (ts : List Nat) (hq : 0 < q) (hg1 : IsUnit inst.g1) (hg2 : IsUnit inst.g2)
    (hh1 : inst.h1 = w • inst.g1) (hh2 : inst.h2 = w • inst.g2)
    (hnd : ¬ q ∣ DLOGEquality.challenge q ser Hash
      ⟨inst.g1, inst.h1, inst.g2, inst.h2 + inst.g2⟩ ts (a • inst.g1) (a • inst.g2)) :
    DLOGEquality.Verify q ser Hash inst ts
      (DLOGEquality.Prove q ser Hash inst w ts a) = true ∧
    DLOGEquality.Verify q ser Hash ⟨inst.g1, inst.h1, inst.g2, inst.h2 + inst.g2⟩ ts
      (DLOGEquality.Prove q ser Hash inst w ts a) = false := by
  haveI : NeZero q := ⟨by omega⟩
  set e := DLOGEquality.challenge q ser Hash inst ts (a • inst.g1) (a • inst.g2) with he
  set f := DLOGEquality.challenge q ser Hash
    ⟨inst.g1, inst.h1, inst.g2, inst.h2 + inst.g2⟩ ts (a • inst.g1) (a • inst.g2) with hf
  constructor
  · simp only [DLOGEquality.Verify, DLOGEquality.Prove, Bool.and_eq_true, decide_eq_true_eq]
    rw [← he]
    constructor
    · rw [hh1]
      exact dlogeq_key q inst.g1 a e w
    · rw [hh2]
      exact dlogeq_key q inst.g2 a e w
  · rw [Bool.eq_false_iff]
    intro htrue
    simp only [DLOGEquality.Verify, DLOGEquality.Prove, Bool.and_eq_true,
      decide_eq_true_eq] at htrue
    rw [← hf, ← he] at htrue
    obtain ⟨hc1, hc2⟩ := htrue
    rw [hh1] at hc1
    rw [hh2] at hc2
    rw [dlogeq_key q inst.g1 a e w] at hc1
    rw [dlogeq_key q inst.g2 a e w] at hc2
    have hs1 : e • (w • inst.g1) = f • (w • inst.g1) := add_left_cancel hc1
    have hs2 : e • (w • inst.g2) = f • (w • inst.g2 + inst.g2) := add_left_cancel hc2
    have h1 : (e : ZMod q) * ((w : ZMod q) * inst.g1) =
        (f : ZMod q) * ((w : ZMod q) * inst.g1) := by
      simp only [nsmul_eq_mul] at hs1
      exact hs1
    have h2 : (e : ZMod q) * ((w : ZMod q) * inst.g2) =
        (f : ZMod q) * ((w : ZMod q) * inst.g2 + inst.g2) := by
      simp only [nsmul_eq_mul] at hs2
      exact hs2
    have hew1 : (e : ZMod q) * (w : ZMod q) = (f : ZMod q) * (w : ZMod q) := by
      apply hg1.mul_left_cancel
      calc inst.g1 * ((e : ZMod q) * (w : ZMod q))
          = (e : ZMod q) * ((w : ZMod q) * inst.g1) := by ring
        _ = (f : ZMod q) * ((w : ZMod q) * inst.g1) := h1
        _ = inst.g1 * ((f : ZMod q) * (w : ZMod q)) := by ring
    have hew2 : (e : ZMod q) * (w : ZMod q) = (f : ZMod q) * (w : ZMod q) + (f : ZMod q) := by
      apply hg2.mul_left_cancel
      calc inst.g2 * ((e : ZMod q) * (w : ZMod q))
          = (e : ZMod q) * ((w : ZMod q) * inst.g2) := by ring
        _ = (f : ZMod q) * ((w : ZMod q) * inst.g2 + inst.g2) := h2
        _ = inst.g2 * ((f : ZMod q) * (w : ZMod q) + (f : ZMod q)) := by ring
    have hf0 : (f : ZMod q) = 0 := by
      have h3 := hew1.symm.trans hew2
      exact self_eq_add_right.mp h3
    exact hnd ((ZMod.natCast_zmod_eq_zero_iff_dvd f q).mp hf0)

/-- C7, counterexample to the claim as stated: with the (spec-modelled,
hence arbitrary) transcript hash returning 0, the verifier accepts the
honest proof on the altered instance `(g1, h1, g2, h2 * g2)`: both
equations degenerate to `g^z = A`.  Here `q = 5`, `g1 = g2 = 1`, `w = 1`,
`a = 0`. -/
theorem C7_dlogeq_reject_counterexample :
    DLOGEquality.Verify 5 (fun _ => []) (fun _ => 0)
      ⟨1, 1, 1, (1 : ZMod 5) + 1⟩ []
      (DLOGEquality.Prove 5 (fun _ => []) (fun _ => 0) ⟨1, 1, 1, 1⟩ 1 [] 0) = true := by
  decide

theorem C7_dlogeq_completeness_and_reject_witness :
    ((0 : Nat) < 5 ∧ IsUnit (1 : ZMod 5) ∧ (2 : ZMod 5) = (2 : Nat) • (1 : ZMod 5) ∧
      ¬ (5 : Nat) ∣ DLOGEquality.challenge 5 (fun _ => []) (fun _ => 1)
        ⟨1, 2, 1, (2 : ZMod 5) + 1⟩ [] ((3 : Nat) • (1 : ZMod 5)) ((3 : Nat) • (1 : ZMod 5))) ∧
    (DLOGEquality.Verify 5 (fun _ => []) (fun _ => 1) ⟨1, 2, 1, 2⟩ []
      (DLOGEquality.Prove 5 (fun _ => []) (fun _ => 1) ⟨1, 2, 1, 2⟩ 2 [] 3) = true ∧
    DLOGEquality.Verify 5 (fun _ => []) (fun _ => 1) ⟨1, 2, 1, (2 : ZMod 5) + 1⟩ []
      (DLOGEquality.Prove 5 (fun _ => []) (fun _ => 1) ⟨1, 2, 1, 2⟩ 2 [] 3) = false) :=
  ⟨⟨by norm_num, isUnit_one, by decide, by decide⟩,
   C7_dlogeq_completeness_and_reject 5 (fun _ => []) (fun _ => 1) ⟨1, 2, 1, 2⟩ 2 3 []
     (by norm_num) isUnit_one isUnit_one (by decide) (by decide) (by decide)⟩

theorem getD_map_range_any {α : Type} (n i : Nat) (f : Nat → α) (d : α) (h : i < n) :
    ((List.range n).map f).getD i d = f i := by
  have hlen : i < ((List.range n).map f).length := by simpa using h
  rw [List.getD_eq_getElem _ _ hlen]
  simp

theorem foldl_if_append {α : Type} (p : Nat → Prop) [DecidablePred p] (v : Nat → α) :
    ∀ (L : List Nat) (acc : List α),
      L.foldl (fun acc j => if p j then acc ++ [v j] else acc) acc =
        acc ++ (L.filter (fun j => p j)).map v := by
  intro L
  induction L with
  | nil => intro acc; simp
  | cons a L ih =>
    intro acc
    rw [List.foldl_cons]
    by_cases hp : p a
    · rw [if_pos hp, ih]
      simp [List.filter_cons, hp]
    · rw [if_neg hp, ih]
      simp [List.filter_cons, hp]

/-! ### cwPRF-based PSI (src/unnamed/part_001)

Modelled from the spec: the PRG (`PRG::SetSeed`, `GenRandomBytes`), the
hash `Hash::BlockToBytes` and the Curve25519 scalar multiplication
`x25519_scalar_mulx` are not among the source files; they are abstract
operations bundled in `PSIModel`.  Points and keys are 32-byte strings
(`List Nat`); `fixed_seed` stands for the hard-coded constant seed of the
PRG header (its value is irrelevant, only that both parties pass the same
constant). -/

namespace cwPRFPSI

/-- Public parameters (src/unnamed/part_001, `struct PP`). -/
structure PP where
  statistical_security_parameter : Nat
  computational_security_parameter : Nat
  LOG_SENDER_ITEM_NUM : Nat
  SENDER_ITEM_NUM : Nat
  LOG_RECEIVER_ITEM_NUM : Nat
  RECEIVER_ITEM_NUM : Nat
  TRUNCATE_LEN : Nat

/-- `cwPRFPSI::Setup`: derives the set sizes and the truncate length
`ceil((lambda_s + log n1 + log n2) / 8)` bytes. -/
def Setup (computational_security_parameter statistical_security_parameter
    LOG_SENDER_ITEM_NUM LOG_RECEIVER_ITEM_NUM : Nat) : PP :=
  { statistical_security_parameter := statistical_security_parameter
    computational_security_parameter := computational_security_parameter
    LOG_SENDER_ITEM_NUM := LOG_SENDER_ITEM_NUM
    SENDER_ITEM_NUM := 2 ^ LOG_SENDER_ITEM_NUM
    LOG_RECEIVER_ITEM_NUM := LOG_RECEIVER_ITEM_NUM
    RECEIVER_ITEM_NUM := 2 ^ LOG_RECEIVER_ITEM_NUM
    TRUNCATE_LEN := (statistical_security_parameter + LOG_SENDER_ITEM_NUM +
      LOG_RECEIVER_ITEM_NUM + 7) / 8 }

/-- Modelled from the spec: the abstract cryptographic operations the PSI
code calls (PRG seeded expansion, block-to-bytes hash, X25519 scalar
multiplication).  `Seed` is the PRG seed state type. -/
structure PSIModel (Seed : Type) where
  setSeed : Nat → Nat → Seed
  genBytes : Seed → Nat → List Nat
  blockToBytes : Nat → List Nat
  smul : List Nat → List Nat → List Nat

/-- Modelled from the spec: the hard-coded `fixed_seed` constant of the
PRG header; both parties pass this same constant to `PRG::SetSeed`. -/
def fixed_seed : Nat := 0

/-- `k1` as derived in `cwPRFPSI::Send`: 32 bytes from a PRG seeded with
`(fixed_seed, 0)`. -/
def senderKey {Seed : Type} (M : PSIModel Seed) : List Nat :=
  M.genBytes (M.setSeed fixed_seed 0) 32

/-- `k2` as derived in `cwPRFPSI::Receive`: 32 bytes from a PRG seeded
with `(fixed_seed, 0)`. -/
def receiverKey {Seed : Type} (M : PSIModel Seed) : List Nat :=
  M.genBytes (M.setSeed fixed_seed 0) 32

/-- `cwPRFPSI::Send`: abort iff `vec_Y.size() != pp.SENDER_ITEM_NUM`;
otherwise send `A[i] = F_k1(y_i)`, receive `B` (the `incoming` points),
and send the `TRUNCATE_LEN`-byte truncations of `B[i]^k1`, in order.
The point vectors exchanged are modelled as index functions `Nat → List Nat`;
the source writes and reads every vector only at indices below the size in
`pp`, where the function value is exactly the stored entry. -/
def SendRun {Seed : Type} (M : PSIModel Seed) (pp : PP) (vec_Y : List Nat)
    (incoming : Nat → List Nat) :
    Except Unit ((Nat → List Nat) × (Nat → List Nat)) :=
  if vec_Y.length ≠ pp.SENDER_ITEM_NUM then Except.error () else
  let k1 := senderKey M
  let vec_Fk1_Y : Nat → List Nat :=
    fun i => M.smul k1 (M.blockToBytes (vec_Y.getD i 0))
  let vec_Fk1k2_X : Nat → List Nat := fun i => M.smul k1 (incoming i)
  let vec_TRUNCATE_Fk1k2_X : Nat → List Nat :=
    fun i => (vec_Fk1k2_X i).take pp.TRUNCATE_LEN
  Except.ok (vec_Fk1_Y, vec_TRUNCATE_Fk1k2_X)

/-- `cwPRFPSI::Receive`: abort iff `vec_X.size() != pp.RECEIVER_ITEM_NUM`;
otherwise send `B[j] = F_k2(x_j)`, receive `A` (`in1`) and the truncations
(`in3`), build the set `S` of truncations of `A[i]^k2` for
`i < pp.SENDER_ITEM_NUM`, and output, in the receiver's input order, those
`x_j` whose received truncation is in `S`. -/
def ReceiveRun {Seed : Type} (M : PSIModel Seed) (pp : PP) (vec_X : List Nat)
    (in1 : Nat → List Nat) (in3 : Nat → List Nat) :
    Except Unit ((Nat → List Nat) × List Nat) :=
  if vec_X.length ≠ pp.RECEIVER_ITEM_NUM then Except.error () else
  let k2 := receiverKey M
  let vec_Fk2_X : Nat → List Nat :=
    fun i => M.smul k2 (M.blockToBytes (vec_X.getD i 0))
  let vec_Fk2k1_Y : Nat → List Nat := fun i => M.smul k2 (in1 i)
  let S := (List.range pp.SENDER_ITEM_NUM).map
    (fun i => (vec_Fk2k1_Y i).take pp.TRUNCATE_LEN)
  let vec_intersection := (List.range pp.RECEIVER_ITEM_NUM).foldl
    (fun acc i => if in3 i ∈ S then acc ++ [vec_X.getD i 0] else acc) []
  Except.ok (vec_Fk2_X, vec_intersection)

/-- The two parties composed over an ideal in-order channel: the receiver's
points go to the sender, the sender's points and truncations go to the
receiver; the run fails if either party aborts. -/
def JointRun {Seed : Type} (M : PSIModel Seed) (pp : PP) (vec_X vec_Y : List Nat) :
    Except Unit (List Nat) :=
  let msg2 : Nat → List Nat :=
    fun i => M.smul (receiverKey M) (M.blockToBytes (vec_X.getD i 0))
  match SendRun M pp vec_Y msg2 with
  | Except.error e => Except.error e
  | Except.ok (m1, m3) =>
    match ReceiveRun M pp vec_X m1 m3 with
    | Except.error e => Except.error e
    | Except.ok (_, out) => Except.ok out

/-- Modelled from the spec: the claimed receiver output — the subsequence
of `vec_X`, in the receiver's input order, of those `x_j` whose truncated
`F_k1(F_k2(x_j))` occurs among the truncated `F_k2(F_k1(y_i))`,
`i < pp.SENDER_ITEM_NUM`. -/
def intersectionSpec {Seed : Type} (M : PSIModel Seed) (pp : PP)
    (vec_X vec_Y : List Nat) : List Nat :=
  ((List.range pp.RECEIVER_ITEM_NUM).filter (fun j =>
    (M.smul (senderKey M)
        (M.smul (receiverKey M) (M.blockToBytes (vec_X.getD j 0)))).take
      pp.TRUNCATE_LEN ∈
    (List.range pp.SENDER_ITEM_NUM).map (fun i =>
      (M.smul (receiverKey M)
          (M.smul (senderKey M) (M.blockToBytes (vec_Y.getD i 0)))).take
        pp.TRUNCATE_LEN))).map (fun j => vec_X.getD j 0)

end cwPRFPSI

/-- C9: each party aborts (returns an error, sending nothing) exactly when
its input list length differs from the size announced in `pp`; on matching
lengths both succeed.  The error carries no protocol messages: every
message exists only in the `ok` branch. -/
theorem C9_psi_size_check {Seed : Type} (M : cwPRFPSI.PSIModel Seed)
    (pp : cwPRFPSI.PP) (vec_Y vec_X : List Nat)
    (incoming in1 in3 : Nat → List Nat) :
    (cwPRFPSI.SendRun M pp vec_Y incoming = Except.error () ↔
      vec_Y.length ≠ pp.SENDER_ITEM_NUM) ∧
    (cwPRFPSI.ReceiveRun M pp vec_X in1 in3 = Except.error () ↔
      vec_X.length ≠ pp.RECEIVER_ITEM_NUM) := by
  constructor
  · unfold cwPRFPSI.SendRun
    by_cases h : vec_Y.length = pp.SENDER_ITEM_NUM <;> simp [h]
  · unfold cwPRFPSI.ReceiveRun
    by_cases h : vec_X.length = pp.RECEIVER_ITEM_NUM <;> simp [h]

/-- C10: both parties derive their cwPRF key from a PRG seeded with the
same hard-coded `(fixed_seed, 0)` and 32 generated bytes, so `k1 = k2`,
and the derivation does not depend on the parties' inputs or on `pp` at
all — it is the same in every run. -/
theorem C10_psi_fixed_keys {Seed : Type} (M : cwPRFPSI.PSIModel Seed) :
    cwPRFPSI.senderKey M = cwPRFPSI.receiverKey M ∧
    cwPRFPSI.senderKey M =
      M.genBytes (M.setSeed cwPRFPSI.fixed_seed 0) 32 := ⟨rfl, rfl⟩

/-- C3: on inputs of the announced sizes the joint run succeeds and the
receiver's output is exactly the subsequence of `vec_X`, in input order,
of those `x_j` whose truncated `F_k1(F_k2(x_j))` occurs among the
truncated `F_k2(F_k1(y_i))`; in particular every element of `vec_X` that
also occurs in `vec_Y` is output (the two keys coincide, so the two
truncated values agree). -/
theorem C3_psi_receiver_output {Seed : Type} (M : cwPRFPSI.PSIModel Seed)
    (pp : cwPRFPSI.PP) (vec_X vec_Y : List Nat)
    (hX : vec_X.length = pp.RECEIVER_ITEM_NUM)
    (hY : vec_Y.length = pp.SENDER_ITEM_NUM) :
    cwPRFPSI.JointRun M pp vec_X vec_Y =
      Except.ok (cwPRFPSI.intersectionSpec M pp vec_X vec_Y) ∧
    ∀ x ∈ vec_X, x ∈ vec_Y →
      x ∈ cwPRFPSI.intersectionSpec M pp vec_X vec_Y := by
  constructor
  · unfold cwPRFPSI.JointRun cwPRFPSI.SendRun cwPRFPSI.ReceiveRun
    dsimp only
    rw [if_neg (fun h => h hY)]
    dsimp only
    rw [if_neg (fun h => h hX)]
    dsimp only
    rw [foldl_if_append, List.nil_append, cwPRFPSI.intersectionSpec]
  · intro x hx hxy
    obtain ⟨j, hj, hxj⟩ := List.getElem_of_mem hx
    have hjR : j < pp.RECEIVER_ITEM_NUM := hX ▸ hj
    have hgd : vec_X.getD j 0 = x := by
      rw [List.getD_eq_getElem _ _ hj]; exact hxj
    rw [cwPRFPSI.intersectionSpec]
    apply List.mem_map.mpr
    refine ⟨j, ?_, hgd⟩
    apply List.mem_filter.mpr
    refine ⟨List.mem_range.mpr hjR, ?_⟩
    rw [decide_eq_true_eq, hgd]
    obtain ⟨i, hi, hyi⟩ := List.getElem_of_mem hxy
    have hgdY : vec_Y.getD i 0 = x := by
      rw [List.getD_eq_getElem _ _ hi]; exact hyi
    apply List.mem_map.mpr
    exact ⟨i, List.mem_range.mpr (hY ▸ hi), by rw [hgdY]; rfl⟩

/-- Witness for C3 at a concrete computable model: keys are the seed byte,
points are byte strings, `smul` is concatenation; `X = [3, 5]`,
`Y = [5, 9]`, so the output is `[5]`. -/
theorem C3_psi_receiver_output_witness :
    cwPRFPSI.JointRun
        ⟨fun a b => a + b, fun s _ => [s % 256], fun b => [b % 256],
          fun k p => k ++ p⟩
        (cwPRFPSI.Setup 128 40 1 1) [3, 5] [5, 9] =
      Except.ok (cwPRFPSI.intersectionSpec
        ⟨fun a b => a + b, fun s _ => [s % 256], fun b => [b % 256],
          fun k p => k ++ p⟩
        (cwPRFPSI.Setup 128 40 1 1) [5, 9] [3, 5]) ∧
    ∀ x ∈ ([3, 5] : List Nat), x ∈ ([5, 9] : List Nat) →
      x ∈ cwPRFPSI.intersectionSpec
        ⟨fun a b => a + b, fun s _ => [s % 256], fun b => [b % 256],
          fun k p => k ++ p⟩
        (cwPRFPSI.Setup 128 40 1 1) [5, 9] [3, 5] :=
  C3_psi_receiver_output _ _ [3, 5] [5, 9] (by decide) (by decide)

/-! ### ALSZ OT extension (src/unnamed/part_000)

The `128 × R` bit matrices of the protocol are stored column-major as
vectors of 128-bit blocks and reinterpreted as byte buffers through the
`(uint8_t*)` casts; `blockBuf` is that reinterpretation, `rowBlock` reads
one 16-byte row of a transposed matrix back as a block (the `memcpy` of
`COLUMN_NUM/8 = 16` bytes into a one-block row vector). -/

theorem xor7_split (q r : Nat) (hr : r < 8) :
    (8 * q + r) ^^^ 7 = 8 * q + (r ^^^ 7) := by
  apply Nat.eq_of_testBit_eq
  intro j
  have h8 : (8 : Nat) * q = 2 ^ 3 * q := by ring
  rw [Nat.testBit_xor, h8,
    Nat.testBit_mul_pow_two_add q (by omega : r < 2 ^ 3) j,
    Nat.testBit_mul_pow_two_add q
      (show r ^^^ 7 < 2 ^ 3 by have := xor7_lt hr; omega) j]
  by_cases hj : j < 3
  · rw [if_pos hj, if_pos hj, Nat.testBit_xor]
  · rw [if_neg hj, if_neg hj]
    have h7 : (7 : Nat).testBit j = false := by
      apply Nat.testBit_lt_two_pow
      calc (7 : Nat) < 2 ^ 3 := by norm_num
        _ ≤ 2 ^ j := Nat.pow_le_pow_right (by norm_num) (by omega)
    rw [h7, Bool.xor_false]

theorem xor7_decomp (x : Nat) : x ^^^ 7 = 8 * (x / 8) + (x % 8 ^^^ 7) := by
  have h := xor7_split (x / 8) (x % 8) (by omega)
  have hx : 8 * (x / 8) + x % 8 = x := by omega
  rw [hx] at h
  exact h

theorem xor7_lt_128 {x : Nat} (hx : x < 128) : x ^^^ 7 < 128 := by
  rw [xor7_decomp x]
  have := xor7_lt (show x % 8 < 8 by omega)
  omega

/-- One 16-byte row of a transposed matrix read back as a 128-bit block
(little-endian, as the `memcpy` into a one-block row vector does). -/
def rowBlock (out : Nat → Nat) (i : Nat) : Nat :=
  packBytes ((List.range 16).map (fun t => out (16 * i + t)))

theorem rowBlock_lt (out : Nat → Nat) (i : Nat) : rowBlock out i < 2 ^ 128 := by
  have h := packBytes_lt ((List.range 16).map (fun t => out (16 * i + t)))
  simpa using h

/-- A column-major block matrix (`nblk` blocks per column) viewed as the
byte buffer the `(uint8_t*)` cast exposes. -/
def blockBuf (col : Nat → Nat → Nat) (nblk : Nat) : Nat → Nat :=
  fun a => byteOf (col (a / 16 / nblk) (a / 16 % nblk)) (a % 16)

theorem blockBuf_bit (col : Nat → Nat → Nat) (nblk j i : Nat) (hn : 0 < nblk)
    (hi : i < 128 * nblk) :
    (blockBuf col nblk (j * (16 * nblk) + i / 8)).testBit ((i % 8) ^^^ 7) =
      (col j (i / 128)).testBit ((i % 128) ^^^ 7) := by
  unfold blockBuf
  have hmul : j * (16 * nblk) = 16 * (nblk * j) := by ring
  rw [hmul]
  have hq : (16 * (nblk * j) + i / 8) / 16 = nblk * j + i / 128 := by
    generalize nblk * j = X
    omega
  rw [hq]
  have hdiv : (nblk * j + i / 128) / nblk = j := by
    rw [Nat.mul_add_div hn]
    have h0 : i / 128 / nblk = 0 := Nat.div_eq_of_lt (by omega)
    omega
  have hmod : (nblk * j + i / 128) % nblk = i / 128 := by
    rw [Nat.mul_add_mod]
    exact Nat.mod_eq_of_lt (by omega)
  have hb16 : (16 * (nblk * j) + i / 8) % 16 = i / 8 % 16 := by
    generalize nblk * j = X
    omega
  rw [hdiv, hmod, hb16, testBit_byteOf _ _ _ (xor7_lt (by omega))]
  have h1 : i / 8 % 16 = i % 128 / 8 := by omega
  have h2 : i % 8 = i % 128 % 8 := by omega
  rw [h1, h2, ← xor7_decomp (i % 128)]

theorem rowBlock_bit (inp : Nat → Nat) (R i w : Nat) (h8c : R % 8 = 0)
    (hi : i < R) (hw : w < 128) :
    (rowBlock (BitMatrixTranspose inp 128 R (fun _ => 0)) i).testBit w =
      (inp ((w ^^^ 7) * (R / 8) + i / 8)).testBit ((i % 8) ^^^ 7) := by
  obtain ⟨k, z, hk, hz, rfl⟩ : ∃ k z, k < 16 ∧ z < 8 ∧ 8 * k + z = w :=
    ⟨w / 8, w % 8, by omega, by omega, by omega⟩
  unfold rowBlock
  rw [testBit_packBytes _ _ _ (by simpa using hk) hz]
  simp only [getD_map_range_any 16 k _ 0 hk]
  have haddr : 16 * i + k = i * (128 / 8) + k := by omega
  rw [haddr,
    BitMatrixTranspose_byte inp (fun _ => 0) 128 R (by norm_num) (by omega) i k hi
      (by omega),
    testBit_mkByte _ _ hz, xor7_split k z hz]

/-- Modelled from the spec: `Block::FromSparseBytes` packs a byte-per-bit
array densely, one block per 128 input bytes, in the bit order the
`BitMatrixTranspose` byte layout reads back (most significant bit of each
byte first); bit `v ^^^ 7` of block `m` is set iff input byte `128 m + v`
is nonzero. -/
def FromSparseBytes (bbit : Nat → Nat) (m : Nat) : Nat :=
  packBytes ((List.range 16).map (fun k =>
    mkByte (fun z => bbit (128 * m + 8 * k + (z ^^^ 7)) != 0)))

theorem FromSparseBytes_lt (bbit : Nat → Nat) (m : Nat) :
    FromSparseBytes bbit m < 2 ^ 128 := by
  have h := packBytes_lt ((List.range 16).map (fun k =>
    mkByte (fun z => bbit (128 * m + 8 * k + (z ^^^ 7)) != 0)))
  simpa using h

theorem FromSparseBytes_testBit (bbit : Nat → Nat) (m p : Nat) (hp : p < 128) :
    (FromSparseBytes bbit m).testBit p = (bbit (128 * m + (p ^^^ 7)) != 0) := by
  obtain ⟨k, z, hk, hz, rfl⟩ : ∃ k z, k < 16 ∧ z < 8 ∧ 8 * k + z = p :=
    ⟨p / 8, p % 8, by omega, by omega, by omega⟩
  unfold FromSparseBytes
  rw [testBit_packBytes _ _ _ (by simpa using hk) hz]
  simp only [getD_map_range_any 16 k _ 0 hk]
  rw [testBit_mkByte _ _ hz, xor7_split k z hz]
  have harg : 128 * m + 8 * k + (z ^^^ 7) = 128 * m + (8 * k + (z ^^^ 7)) := by omega
  rw [harg]

namespace ALSZOTE

/-- Modelled from the spec: the PRG interface the OT extension uses.
`genBlocks s n` / `genBits s n` return the `n` generated 128-bit blocks /
bit bytes together with the advanced seed state; `reseed salt id`
(`PRG::ReSeed`) replaces the state by one derived from the salt block and
the counter only. -/
structure PRGModel (Seed : Type) where
  genBlocks : Seed → Nat → (Nat → Nat) × Seed
  genBits : Seed → Nat → (Nat → Nat) × Seed
  reseed : Nat → Nat → Seed

/-- Modelled from the spec: the ideal Naor-Pinkas base OT — for each
index the chooser with selection byte `0` obtains the first key and
otherwise the second, and the key holder learns nothing. -/
def npotIdeal (K0 K1 : Nat → Nat) (sel : Nat → Nat) : Nat → Nat :=
  fun j => if sel j = 0 then K0 j else K1 j

/-! Receiver side (`ALSZOTE::PrepareReceive`), with
`COLUMN_NUM = pp.BASE_LEN = 128` and `ROW_NUM = R`.  `rSeed` is the
receiver's `PRG::SetSeed(nullptr, 0)` state.  Since `PRG::ReSeed`
replaces the PRG state, the state after the column loop is the one
advanced from the final reseed with `vec_U_seed 127`. -/

def vec_T_seed {Seed : Type} (G : PRGModel Seed) (rSeed : Seed) : Nat → Nat :=
  (G.genBlocks rSeed 128).1

def vec_U_seed {Seed : Type} (G : PRGModel Seed) (rSeed : Seed) : Nat → Nat :=
  (G.genBlocks (G.genBlocks rSeed 128).2 128).1

def T_column {Seed : Type} (G : PRGModel Seed) (rSeed : Seed) (R : Nat) :
    Nat → Nat → Nat :=
  fun j => (G.genBlocks (G.reseed (vec_T_seed G rSeed j) 0) (R / 128)).1

def U_column {Seed : Type} (G : PRGModel Seed) (rSeed : Seed) (R : Nat) :
    Nat → Nat → Nat :=
  fun j => (G.genBlocks (G.reseed (vec_U_seed G rSeed j) 0) (R / 128)).1

/-- `vec_receiver_selection_block`: dense packing of the selection bytes. -/
def rSelBlock (b : Nat → Nat) : Nat → Nat := FromSparseBytes b

/-- `P_column j = (T_column j XOR U_column j) XOR r*` (two `Block::XOR`s);
this uses the locally generated `U_column`, not the buggy stored `U`. -/
def P_column {Seed : Type} (G : PRGModel Seed) (rSeed : Seed) (R : Nat)
    (b : Nat → Nat) : Nat → Nat → Nat :=
  fun j u => (T_column G rSeed R j u ^^^ U_column G rSeed R j u) ^^^ rSelBlock b u

def loopState {Seed : Type} (G : PRGModel Seed) (rSeed : Seed) (R : Nat) : Seed :=
  (G.genBlocks (G.reseed (vec_U_seed G rSeed 127) 0) (R / 128)).2

def vec_inner_K0 {Seed : Type} (G : PRGModel Seed) (rSeed : Seed) (R : Nat) :
    Nat → Nat :=
  (G.genBlocks (loopState G rSeed R) 128).1

def vec_inner_K1 {Seed : Type} (G : PRGModel Seed) (rSeed : Seed) (R : Nat) :
    Nat → Nat :=
  (G.genBlocks (G.genBlocks (loopState G rSeed R) 128).2 128).1

def vec_inner_C0 {Seed : Type} (G : PRGModel Seed) (rSeed : Seed) (R : Nat) :
    Nat → Nat :=
  fun j => vec_inner_K0 G rSeed R j ^^^ vec_T_seed G rSeed j

def vec_inner_C1 {Seed : Type} (G : PRGModel Seed) (rSeed : Seed) (R : Nat) :
    Nat → Nat :=
  fun j => vec_inner_K1 G rSeed R j ^^^ vec_U_seed G rSeed j

def T_transpose {Seed : Type} (G : PRGModel Seed) (rSeed : Seed) (R : Nat) :
    Nat → Nat :=
  BitMatrixTranspose (blockBuf (T_column G rSeed R) (R / 128)) 128 R (fun _ => 0)

/-- `vec_K[i] = Hash::BlocksToBlock(T_row)` (one block per row since
`COLUMN_NUM/128 = 1`). -/
def vec_K {Seed : Type} (G : PRGModel Seed) (Hash : Nat → Nat) (rSeed : Seed)
    (R : Nat) : Nat → Nat :=
  fun i => Hash (rowBlock (T_transpose G rSeed R) i)

/-! Sender side (`ALSZOTE::PrepareSend`).  `sSeed` is the sender's own
`PRG::SetSeed(nullptr, 0)` state; the base-OT keys arrive through the
ideal base OT. -/

def vec_sender_selection_bit {Seed : Type} (G : PRGModel Seed) (sSeed : Seed) :
    Nat → Nat :=
  (G.genBits sSeed 128).1

def vec_inner_K {Seed : Type} (G : PRGModel Seed) (sSeed rSeed : Seed) (R : Nat) :
    Nat → Nat :=
  npotIdeal (vec_inner_K0 G rSeed R) (vec_inner_K1 G rSeed R)
    (vec_sender_selection_bit G sSeed)

def vec_Q_seed {Seed : Type} (G : PRGModel Seed) (sSeed rSeed : Seed) (R : Nat) :
    Nat → Nat :=
  fun j =>
    if vec_sender_selection_bit G sSeed j = 0 then
      vec_inner_C0 G rSeed R j ^^^ vec_inner_K G sSeed rSeed R j
    else
      vec_inner_C1 G rSeed R j ^^^ vec_inner_K G sSeed rSeed R j

def Q_column {Seed : Type} (G : PRGModel Seed) (sSeed rSeed : Seed) (R : Nat) :
    Nat → Nat → Nat :=
  fun j => (G.genBlocks (G.reseed (vec_Q_seed G sSeed rSeed R j) 0) (R / 128)).1

def Q_transpose {Seed : Type} (G : PRGModel Seed) (sSeed rSeed : Seed) (R : Nat) :
    Nat → Nat :=
  BitMatrixTranspose (blockBuf (Q_column G sSeed rSeed R) (R / 128)) 128 R
    (fun _ => 0)

def P_transpose {Seed : Type} (G : PRGModel Seed) (rSeed : Seed) (R : Nat)
    (b : Nat → Nat) : Nat → Nat :=
  BitMatrixTranspose (blockBuf (P_column G rSeed R b) (R / 128)) 128 R
    (fun _ => 0)

/-- `vec_sender_selection_block` (one block: `COLUMN_NUM/128 = 1`). -/
def sSelBlock {Seed : Type} (G : PRGModel Seed) (sSeed : Seed) : Nat :=
  FromSparseBytes (vec_sender_selection_bit G sSeed) 0

/-- `Q_row = Block::XOR(Q_row, Block::AND(s*, P_row))` for row `i`
(single-block row vectors; `Block::AND` is the missing pointwise helper,
modelled from the spec as bitwise AND). -/
def Q_row_adjusted {Seed : Type} (G : PRGModel Seed) (sSeed rSeed : Seed)
    (R : Nat) (b : Nat → Nat) : Nat → Nat :=
  fun i =>
    rowBlock (Q_transpose G sSeed rSeed R) i ^^^
      (sSelBlock G sSeed &&& rowBlock (P_transpose G rSeed R b) i)

def vec_K0 {Seed : Type} (G : PRGModel Seed) (Hash : Nat → Nat)
    (sSeed rSeed : Seed) (R : Nat) (b : Nat → Nat) : Nat → Nat :=
  fun i => Hash (Q_row_adjusted G sSeed rSeed R b i)

def vec_K1 {Seed : Type} (G : PRGModel Seed) (Hash : Nat → Nat)
    (sSeed rSeed : Seed) (R : Nat) (b : Nat → Nat) : Nat → Nat :=
  fun i => Hash (Q_row_adjusted G sSeed rSeed R b i ^^^ sSelBlock G sSeed)

/-! `ALSZOTE::Send` / `ALSZOTE::Receive`: the payload phase. -/

def vec_outer_C0 {Seed : Type} (G : PRGModel Seed) (Hash : Nat → Nat)
    (sSeed rSeed : Seed) (R : Nat) (b m0 : Nat → Nat) : Nat → Nat :=
  fun i => m0 i ^^^ vec_K0 G Hash sSeed rSeed R b i

def vec_outer_C1 {Seed : Type} (G : PRGModel Seed) (Hash : Nat → Nat)
    (sSeed rSeed : Seed) (R : Nat) (b m1 : Nat → Nat) : Nat → Nat :=
  fun i => m1 i ^^^ vec_K1 G Hash sSeed rSeed R b i

/-- The receiver's output vector `vec_result`. -/
def vec_result {Seed : Type} (G : PRGModel Seed) (Hash : Nat → Nat)
    (sSeed rSeed : Seed) (R : Nat) (b m0 m1 : Nat → Nat) : List Nat :=
  (List.range R).map (fun i =>
    if b i = 0 then
      vec_outer_C0 G Hash sSeed rSeed R b m0 i ^^^ vec_K G Hash rSeed R i
    else
      vec_outer_C1 G Hash sSeed rSeed R b m1 i ^^^ vec_K G Hash rSeed R i)

end ALSZOTE

theorem transposedRow_bit (col : Nat → Nat → Nat) (R i w : Nat) (hR : R % 128 = 0)
    (hR0 : 0 < R) (hi : i < R) (hw : w < 128) :
    (rowBlock (BitMatrixTranspose (blockBuf col (R / 128)) 128 R (fun _ => 0))
        i).testBit w =
      (col (w ^^^ 7) (i / 128)).testBit ((i % 128) ^^^ 7) := by
  rw [rowBlock_bit _ R i w (by omega) hi hw]
  have hRdiv : R / 8 = 16 * (R / 128) := by omega
  rw [hRdiv]
  exact blockBuf_bit col (R / 128) (w ^^^ 7) i (by omega) (by omega)

theorem ALSZOTE.sSelBlock_testBit {Seed : Type} (G : ALSZOTE.PRGModel Seed)
    (sSeed : Seed) (w : Nat) (hw : w < 128) :
    (ALSZOTE.sSelBlock G sSeed).testBit w =
      (ALSZOTE.vec_sender_selection_bit G sSeed (w ^^^ 7) != 0) := by
  unfold ALSZOTE.sSelBlock
  rw [FromSparseBytes_testBit _ _ _ hw]
  norm_num

theorem ALSZOTE.rSelBlock_bit (b : Nat → Nat) (i : Nat) :
    (ALSZOTE.rSelBlock b (i / 128)).testBit ((i % 128) ^^^ 7) = (b i != 0) := by
  unfold ALSZOTE.rSelBlock
  rw [FromSparseBytes_testBit b (i / 128) _ (xor7_lt_128 (by omega))]
  have hc : (i % 128 ^^^ 7) ^^^ 7 = i % 128 := Nat.xor_cancel_right _ _
  rw [hc]
  have harg : 128 * (i / 128) + i % 128 = i := by omega
  rw [harg]

/-- The sender's `Q` column is the receiver's `T` column when the sender's
base-OT selection byte was zero, and the `U` column otherwise: the
encrypted seed decrypts to the matching seed. -/
theorem ALSZOTE.Q_column_eq {Seed : Type} (G : ALSZOTE.PRGModel Seed)
    (sSeed rSeed : Seed) (R j : Nat) :
    ALSZOTE.Q_column G sSeed rSeed R j =
      if ALSZOTE.vec_sender_selection_bit G sSeed j = 0 then
        ALSZOTE.T_column G rSeed R j
      else ALSZOTE.U_column G rSeed R j := by
  by_cases hs : ALSZOTE.vec_sender_selection_bit G sSeed j = 0
  · rw [if_pos hs]
    have hseed : ALSZOTE.vec_Q_seed G sSeed rSeed R j =
        ALSZOTE.vec_T_seed G rSeed j := by
      simp only [ALSZOTE.vec_Q_seed, ALSZOTE.vec_inner_K, ALSZOTE.npotIdeal,
        ALSZOTE.vec_inner_C0, hs, if_pos]
      rw [Nat.xor_comm (ALSZOTE.vec_inner_K0 G rSeed R j)
          (ALSZOTE.vec_T_seed G rSeed j),
        Nat.xor_cancel_right]
    exact congrArg (fun s => (G.genBlocks (G.reseed s 0) (R / 128)).1) hseed
  · rw [if_neg hs]
    have hseed : ALSZOTE.vec_Q_seed G sSeed rSeed R j =
        ALSZOTE.vec_U_seed G rSeed j := by
      simp only [ALSZOTE.vec_Q_seed, ALSZOTE.vec_inner_K, ALSZOTE.npotIdeal,
        ALSZOTE.vec_inner_C1, hs, if_neg, if_false, ite_false]
      rw [Nat.xor_comm (ALSZOTE.vec_inner_K1 G rSeed R j)
          (ALSZOTE.vec_U_seed G rSeed j),
        Nat.xor_cancel_right]
    exact congrArg (fun s => (G.genBlocks (G.reseed s 0) (R / 128)).1) hseed

/-- Bit-level heart of the OT matrix invariant: the sender's adjusted row
equals the receiver's `T` row, XOR the sender selection block exactly when
the receiver's selection byte for that row is nonzero. -/
theorem ALSZOTE.Q_row_adjusted_eq {Seed : Type} (G : ALSZOTE.PRGModel Seed)
    (sSeed rSeed : Seed) (R : Nat) (b : Nat → Nat) (hR : R % 128 = 0)
    (hR0 : 0 < R) (i : Nat) (hi : i < R) :
    ALSZOTE.Q_row_adjusted G sSeed rSeed R b i =
      rowBlock (ALSZOTE.T_transpose G rSeed R) i ^^^
        (if b i = 0 then 0 else ALSZOTE.sSelBlock G sSeed) := by
  apply Nat.eq_of_testBit_eq
  intro w
  rcases Nat.lt_or_ge w 128 with hw | hw
  · have hQ : (rowBlock (ALSZOTE.Q_transpose G sSeed rSeed R) i).testBit w =
        (ALSZOTE.Q_column G sSeed rSeed R (w ^^^ 7) (i / 128)).testBit
          ((i % 128) ^^^ 7) := by
      simp only [ALSZOTE.Q_transpose]
      exact transposedRow_bit _ R i w hR hR0 hi hw
    have hP : (rowBlock (ALSZOTE.P_transpose G rSeed R b) i).testBit w =
        (ALSZOTE.P_column G rSeed R b (w ^^^ 7) (i / 128)).testBit
          ((i % 128) ^^^ 7) := by
      simp only [ALSZOTE.P_transpose]
      exact transposedRow_bit _ R i w hR hR0 hi hw
    have hT : (rowBlock (ALSZOTE.T_transpose G rSeed R) i).testBit w =
        (ALSZOTE.T_column G rSeed R (w ^^^ 7) (i / 128)).testBit
          ((i % 128) ^^^ 7) := by
      simp only [ALSZOTE.T_transpose]
      exact transposedRow_bit _ R i w hR hR0 hi hw
    have hPcol : (ALSZOTE.P_column G rSeed R b (w ^^^ 7) (i / 128)).testBit
          ((i % 128) ^^^ 7) =
        (((ALSZOTE.T_column G rSeed R (w ^^^ 7) (i / 128)).testBit
            ((i % 128) ^^^ 7)).xor
          ((ALSZOTE.U_column G rSeed R (w ^^^ 7) (i / 128)).testBit
            ((i % 128) ^^^ 7))).xor (b i != 0) := by
      simp only [ALSZOTE.P_column]
      rw [Nat.testBit_xor, Nat.testBit_xor, ALSZOTE.rSelBlock_bit b i]
    simp only [ALSZOTE.Q_row_adjusted]
    rw [Nat.testBit_xor, Nat.testBit_xor, Nat.testBit_land, hQ, hP, hPcol, hT,
      ALSZOTE.sSelBlock_testBit G sSeed w hw, ALSZOTE.Q_column_eq G sSeed rSeed R]
    by_cases hs : ALSZOTE.vec_sender_selection_bit G sSeed (w ^^^ 7) = 0
    · rw [if_pos hs, hs]
      by_cases hb : b i = 0
      · rw [if_pos hb, hb]
        simp
      · rw [if_neg hb, ALSZOTE.sSelBlock_testBit G sSeed w hw, hs]
        simp
    · rw [if_neg hs]
      have hs' : (ALSZOTE.vec_sender_selection_bit G sSeed (w ^^^ 7) != 0) = true := by
        simpa using hs
      rw [hs']
      by_cases hb : b i = 0
      · rw [if_pos hb, hb]
        cases ht : (ALSZOTE.T_column G rSeed R (w ^^^ 7) (i / 128)).testBit
            ((i % 128) ^^^ 7) <;>
          cases hu : (ALSZOTE.U_column G rSeed R (w ^^^ 7) (i / 128)).testBit
              ((i % 128) ^^^ 7) <;>
            simp
      · rw [if_neg hb, ALSZOTE.sSelBlock_testBit G sSeed w hw, hs']
        have hb' : (b i != 0) = true := by simpa using hb
        rw [hb']
        cases ht : (ALSZOTE.T_column G rSeed R (w ^^^ 7) (i / 128)).testBit
            ((i % 128) ^^^ 7) <;>
          cases hu : (ALSZOTE.U_column G rSeed R (w ^^^ 7) (i / 128)).testBit
              ((i % 128) ^^^ 7) <;>
            simp
  · have hL : ALSZOTE.Q_row_adjusted G sSeed rSeed R b i < 2 ^ 128 := by
      simp only [ALSZOTE.Q_row_adjusted]
      exact Nat.xor_lt_two_pow (rowBlock_lt _ _)
        (Nat.lt_of_le_of_lt Nat.and_le_right (rowBlock_lt _ _))
    have hRt : rowBlock (ALSZOTE.T_transpose G rSeed R) i ^^^
        (if b i = 0 then 0 else ALSZOTE.sSelBlock G sSeed) < 2 ^ 128 := by
      apply Nat.xor_lt_two_pow (rowBlock_lt _ _)
      by_cases hb : b i = 0
      · rw [if_pos hb]
        exact Nat.pos_pow_of_pos 128 (by norm_num)
      · rw [if_neg hb]
        simp only [ALSZOTE.sSelBlock]
        exact FromSparseBytes_lt _ _
    have hle : (2 : Nat) ^ 128 ≤ 2 ^ w := Nat.pow_le_pow_right (by norm_num) hw
    rw [Nat.testBit_lt_two_pow (Nat.lt_of_lt_of_le hL hle),
      Nat.testBit_lt_two_pow (Nat.lt_of_lt_of_le hRt hle)]

/-- `vec_K[i]` matches `vec_K0[i]` or `vec_K1[i]` according to the
receiver's selection byte for row `i`. -/
theorem ALSZOTE.key_match {Seed : Type} (G : ALSZOTE.PRGModel Seed)
    (Hash : Nat → Nat) (sSeed rSeed : Seed) (R : Nat) (b : Nat → Nat)
    (hR : R % 128 = 0) (hR0 : 0 < R) (i : Nat) (hi : i < R) :
    ALSZOTE.vec_K G Hash rSeed R i =
      if b i = 0 then ALSZOTE.vec_K0 G Hash sSeed rSeed R b i
      else ALSZOTE.vec_K1 G Hash sSeed rSeed R b i := by
  have h := ALSZOTE.Q_row_adjusted_eq G sSeed rSeed R b hR hR0 i hi
  by_cases hb : b i = 0
  · rw [if_pos hb, Nat.xor_zero] at h
    rw [if_pos hb]
    simp only [ALSZOTE.vec_K, ALSZOTE.vec_K0]
    rw [h]
  · rw [if_neg hb] at h
    rw [if_neg hb]
    simp only [ALSZOTE.vec_K, ALSZOTE.vec_K1]
    rw [h, Nat.xor_cancel_right]

/-- C2: after the extension setup phases complete against each other over
an ideal channel, for every positive multiple `R` of 128 and every
selection vector, `vec_K[i] = vec_K0[i]` when `b[i] = 0` and
`vec_K[i] = vec_K1[i]` when `b[i] ≠ 0`, for every row `i < R`. -/
theorem C2_ote_key_invariant {Seed : Type} (G : ALSZOTE.PRGModel Seed)
    (Hash : Nat → Nat) (sSeed rSeed : Seed) (R : Nat) (b : Nat → Nat)
    (hR : R % 128 = 0) (hR0 : 0 < R) :
    ∀ i, i < R →
      ALSZOTE.vec_K G Hash rSeed R i =
        if b i = 0 then ALSZOTE.vec_K0 G Hash sSeed rSeed R b i
        else ALSZOTE.vec_K1 G Hash sSeed rSeed R b i :=
  fun i hi => ALSZOTE.key_match G Hash sSeed rSeed R b hR hR0 i hi

/-- Witness for C2 at a concrete computable PRG model, `R = 128`,
alternating selection bits, row `i = 3`. -/
theorem C2_ote_key_invariant_witness :
    ALSZOTE.vec_K ⟨fun _ n => (fun k => k + n, ()), fun _ n => (fun k => (k + n) % 2, ()),
          fun _ _ => ()⟩
        (fun x => x) () 128 3 =
      if (fun i : Nat => i % 2) 3 = 0 then
        ALSZOTE.vec_K0   ⟨fun _ n => (fun k => k + n, ()), fun _ n => (fun k => (k + n) % 2, ()),
            fun _ _ => ()⟩
          (fun x => x) () () 128 (fun i => i % 2) 3
      else
        ALSZOTE.vec_K1   ⟨fun _ n => (fun k => k + n, ()), fun _ n => (fun k => (k + n) % 2, ()),
            fun _ _ => ()⟩
          (fun x => x) () () 128 (fun i => i % 2) 3 :=
  C2_ote_key_invariant _ _ () () 128 (fun i => i % 2) (by decide) (by decide) 3
    (by decide)

/-- C1: for every `R` a positive multiple of 128, message vectors `m0, m1`
and selection vector `b`, the receiver's output has length `R` and its
element `i` is `m0 i` when `b i = 0` and `m1 i` otherwise, for every
`i < R`. -/
theorem C1_ote_correctness {Seed : Type} (G : ALSZOTE.PRGModel Seed)
    (Hash : Nat → Nat) (sSeed rSeed : Seed) (R : Nat) (b m0 m1 : Nat → Nat)
    (hR : R % 128 = 0) (hR0 : 0 < R) :
    (ALSZOTE.vec_result G Hash sSeed rSeed R b m0 m1).length = R ∧
    ∀ i, i < R →
      (ALSZOTE.vec_result G Hash sSeed rSeed R b m0 m1).getD i 0 =
        if b i = 0 then m0 i else m1 i := by
  constructor
  · simp [ALSZOTE.vec_result]
  · intro i hi
    simp only [ALSZOTE.vec_result]
    simp only [getD_map_range_any R i _ 0 hi]
    by_cases hb : b i = 0
    · rw [if_pos hb, if_pos hb]
      simp only [ALSZOTE.vec_outer_C0]
      rw [ALSZOTE.key_match G Hash sSeed rSeed R b hR hR0 i hi, if_pos hb,
        Nat.xor_cancel_right]
    · rw [if_neg hb, if_neg hb]
      simp only [ALSZOTE.vec_outer_C1]
      rw [ALSZOTE.key_match G Hash sSeed rSeed R b hR hR0 i hi, if_neg hb,
        Nat.xor_cancel_right]

/-- Witness for C1 at a concrete computable PRG model, `R = 128`. -/
theorem C1_ote_correctness_witness :
    (ALSZOTE.vec_result ⟨fun _ n => (fun k => k + n, ()), fun _ n => (fun k => (k + n) % 2, ()),
          fun _ _ => ()⟩
        (fun x => x) () () 128 (fun i => i % 2) (fun i => i) (fun i => i + 100)
      ).length = 128 ∧
    ∀ i, i < 128 →
      (ALSZOTE.vec_result   ⟨fun _ n => (fun k => k + n, ()), fun _ n => (fun k => (k + n) % 2, ()),
            fun _ _ => ()⟩
          (fun x => x) () () 128 (fun i => i % 2) (fun i => i) (fun i => i + 100)
        ).getD i 0 =
        if (fun i : Nat => i % 2) i = 0 then (fun i : Nat => i) i
        else (fun i : Nat => i + 100) i :=
  C1_ote_correctness _ _ () () 128 (fun i => i % 2) (fun i => i) (fun i => i + 100)
    (by decide) (by decide)
